import Mathlib

/-!
Verification development for the `im` persistent ordered set (`set.rs`) and the
weight-balanced tree engine (the `Map` type) that backs it.

The `Set` adapter is translated directly from `src/set.rs`.  The tree engine
(`map.rs`) is not among the inspected sources, so it is modelled from the
specification: a persistent weight-balanced binary search tree with cached
subtree sizes, rebalancing by single/double rotations chosen by a ratio test,
deletion by gluing the children of the removed node, split-based union,
intersection and difference, rank-based `take`/`drop`, extremum extraction and
an invariant-checking oracle.  The chosen balance constants are `delta = 3`,
`ratio = 2` (the specification leaves the constant open but requires the
rebalancing operations and the validity oracle to agree on it).

The proofs relate the model, node for node, to Mathlib's `Ordnode` development
and extend that development with correct proof-layer versions of the join-based
operations (`jlink`, `jsplit`, `junion`, `jinter`, `jdiff`, `jtake`, `jdrop`)
which Mathlib defines but does not verify.
-/

namespace Ordnode

variable {α : Type*}

/-- Proof-layer operation: insert an element strictly below every element of the
tree, rebalancing along the left spine. -/
def jinsertMin (x : α) : Ordnode α → Ordnode α
  | nil => Ordnode.singleton x
  | node _ l y r => balanceL (jinsertMin x l) y r

/-- Proof-layer operation: insert an element strictly above every element of the
tree, rebalancing along the right spine. -/
def jinsertMax : Ordnode α → α → Ordnode α
  | nil, x => Ordnode.singleton x
  | node _ l y r, x => balanceR l y (jinsertMax r x)

/-- Proof-layer operation: join two trees around a middle element, with no
assumption on the relative sizes of the two sides.  This is the join operation
of the join-based set algebra (`union`, `intersection`, `difference`, `split`,
`take`, `drop` are all built on it). -/
def jlink : Ordnode α → α → Ordnode α → Ordnode α
  | nil, x, r => jinsertMin x r
  | node ls ll lx lr, x, nil => jinsertMax (node ls ll lx lr) x
  | node ls ll lx lr, x, node rs rl rx rr =>
    if delta * ls < rs then balanceL (jlink (node ls ll lx lr) x rl) rx rr
    else if delta * rs < ls then balanceR ll lx (jlink lr x (node rs rl rx rr))
    else node' (node ls ll lx lr) x (node rs rl rx rr)
  termination_by l _ r => realSize l + realSize r
  decreasing_by
  · simp only [realSize]; omega
  · simp only [realSize]; omega

/-- Proof-layer operation: split a tree at an element `x` into the subtree of
elements below `x` and the subtree of elements above `x`, discarding `x` itself
if present. -/
def jsplit [LinearOrder α] (x : α) : Ordnode α → Ordnode α × Ordnode α
  | nil => (nil, nil)
  | node _ l y r =>
    match compare x y with
    | Ordering.lt =>
      let s := jsplit x l
      (s.1, jlink s.2 y r)
    | Ordering.eq => (l, r)
    | Ordering.gt =>
      let s := jsplit x r
      (jlink l y s.1, s.2)

/-- Proof-layer operation: like `jsplit`, but also returns the element at the
split point, if present. -/
def jsplit3 [LinearOrder α] (x : α) : Ordnode α → Ordnode α × Option α × Ordnode α
  | nil => (nil, none, nil)
  | node _ l y r =>
    match compare x y with
    | Ordering.lt =>
      let s := jsplit3 x l
      (s.1, s.2.1, jlink s.2.2 y r)
    | Ordering.eq => (l, some y, r)
    | Ordering.gt =>
      let s := jsplit3 x r
      (jlink l y s.1, s.2.1, s.2.2)

/-- Proof-layer operation: split-based union.  The pivot is the root of the
first operand, whose element survives when both sides contain it. -/
def junion [LinearOrder α] : Ordnode α → Ordnode α → Ordnode α
  | nil, t₂ => t₂
  | t₁, nil => t₁
  | node _ l₁ x r₁, node s₂ l₂ y r₂ =>
    let s := jsplit x (node s₂ l₂ y r₂)
    jlink (junion l₁ s.1) x (junion r₁ s.2)

/-- Proof-layer operation: split-based intersection, keeping the first
operand's copy of common elements. -/
def jinter [LinearOrder α] : Ordnode α → Ordnode α → Ordnode α
  | nil, _ => nil
  | node _ _ _ _, nil => nil
  | node _ l₁ x r₁, node s₂ l₂ y r₂ =>
    let s := jsplit3 x (node s₂ l₂ y r₂)
    let i₁ := jinter l₁ s.1
    let i₂ := jinter r₁ s.2.2
    if s.2.1.isSome then jlink i₁ x i₂ else merge i₁ i₂

/-- Proof-layer operation: split-based difference, keeping the elements of the
first operand that do not occur in the second. -/
def jdiff [LinearOrder α] : Ordnode α → Ordnode α → Ordnode α
  | t₁, nil => t₁
  | nil, node _ _ _ _ => nil
  | node s₁ l₁ x r₁, node _ l₂ y r₂ =>
    let s := jsplit y (node s₁ l₁ x r₁)
    merge (jdiff s.1 l₂) (jdiff s.2 r₂)

/-- Proof-layer operation: the subtree of the first `n` elements in ascending
order, assuming `n < size t`, descending by the cached sizes. -/
def jtakeAux : ℕ → Ordnode α → Ordnode α
  | _, nil => nil
  | n, node _ l x r =>
    if n ≤ size l then jtakeAux n l else jlink l x (jtakeAux (n - size l - 1) r)

/-- Proof-layer operation: the first `n` elements in ascending order. -/
def jtake (n : ℕ) (t : Ordnode α) : Ordnode α :=
  if size t ≤ n then t else jtakeAux n t

/-- Proof-layer operation: all but the first `n` elements in ascending order,
assuming `n < size t`, descending by the cached sizes. -/
def jdropAux : ℕ → Ordnode α → Ordnode α
  | _, nil => nil
  | n, node _ l x r =>
    if n ≤ size l then jlink (jdropAux n l) x r else jdropAux (n - size l - 1) r

/-- Proof-layer operation: all but the first `n` elements in ascending order. -/
def jdrop (n : ℕ) (t : Ordnode α) : Ordnode α :=
  if size t ≤ n then nil else jdropAux n t

/-- Proof-layer operation: extract the least element together with the tree
with that element removed. -/
def jpopMin : Ordnode α → Option α × Ordnode α
  | nil => (none, nil)
  | node _ l x r =>
    let p := splitMin' l x r
    (some p.1, p.2)

end Ordnode

namespace Ordnode

variable {α : Type*}

theorem jlink_nil_left {x : α} {r : Ordnode α} : jlink nil x r = jinsertMin x r := by
  rw [jlink]

theorem jlink_node_nil {ls} {ll : Ordnode α} {lx lr x} :
    jlink (node ls ll lx lr) x nil = jinsertMax (node ls ll lx lr) x := by
  rw [jlink]

theorem jlink_node_node {ls} {ll : Ordnode α} {lx lr x rs rl rx rr} :
    jlink (node ls ll lx lr) x (node rs rl rx rr) =
      if delta * ls < rs then balanceL (jlink (node ls ll lx lr) x rl) rx rr
      else if delta * rs < ls then balanceR ll lx (jlink lr x (node rs rl rx rr))
      else node' (node ls ll lx lr) x (node rs rl rx rr) := by
  rw [jlink]

theorem dual_jinsertMin (x : α) : ∀ t : Ordnode α, dual (jinsertMin x t) = jinsertMax (dual t) x
  | nil => rfl
  | node s l y r => by
    rw [jinsertMin, dual_balanceL, dual_jinsertMin x l]
    rfl

theorem dual_jinsertMax (x : α) (t : Ordnode α) : dual (jinsertMax t x) = jinsertMin x (dual t) := by
  rw [← dual_dual (jinsertMin x (dual t)), dual_jinsertMin, dual_dual]

theorem dual_jlink : ∀ (l : Ordnode α) (x : α) (r : Ordnode α),
    dual (jlink l x r) = jlink (dual r) x (dual l)
  | nil, x, nil => by
    rw [jlink_nil_left]
    show dual (jinsertMin x nil) = jlink nil x nil
    rw [jlink_nil_left]
    rfl
  | nil, x, node rs rl rx rr => by
    rw [jlink_nil_left, dual_jinsertMin]
    show jinsertMax (dual (node rs rl rx rr)) x =
      jlink (node rs (dual rr) rx (dual rl)) x nil
    rw [jlink_node_nil]
    rfl
  | node ls ll lx lr, x, nil => by
    rw [jlink_node_nil, dual_jinsertMax]
    show jinsertMin x (node ls (dual lr) lx (dual ll)) =
      jlink nil x (node ls (dual lr) lx (dual ll))
    rw [jlink_nil_left]
  | node ls ll lx lr, x, node rs rl rx rr => by
    rw [jlink_node_node]
    have e₂ : dual (node rs rl rx rr) = node rs (dual rr) rx (dual rl) := rfl
    have e₁ : dual (node ls ll lx lr) = node ls (dual lr) lx (dual ll) := rfl
    rw [e₁, e₂, jlink_node_node]
    by_cases h₁ : delta * ls < rs <;> by_cases h₂ : delta * rs < ls
    · exact (delta_lt_false h₁ h₂).elim
    · rw [if_pos h₁, if_neg h₂, if_pos h₁, dual_balanceL,
        dual_jlink (node ls ll lx lr) x rl, e₁]
    · rw [if_neg h₁, if_pos h₂, if_pos h₂, dual_balanceR,
        dual_jlink lr x (node rs rl rx rr), e₂]
    · rw [if_neg h₁, if_neg h₂, if_neg h₂, if_neg h₁, dual_node', e₁, e₂]
  termination_by l _ r => realSize l + realSize r
  decreasing_by
  · simp only [realSize]; omega
  · simp only [realSize]; omega

section

variable [Preorder α]

theorem valid'_jinsertMin : ∀ {t : Ordnode α} {x : α} {o₁ o₂}, Valid' ↑x t o₂ →
    Bounded nil o₁ ↑x → Valid' o₁ (jinsertMin x t) o₂ ∧ size (jinsertMin x t) = size t + 1
  | nil, x, o₁, o₂, h, hb => ⟨valid'_singleton hb h.1, rfl⟩
  | node s l y r, x, o₁, o₂, h, hb => by
    rcases valid'_jinsertMin h.left hb with ⟨vl, e⟩
    have H : (∃ l', Raised l' (size (jinsertMin x l)) ∧ BalancedSz l' (size r)) ∨
        ∃ r', Raised (size r) r' ∧ BalancedSz (size (jinsertMin x l)) r' :=
      Or.inl ⟨size l, Or.inr e, h.3.1⟩
    refine ⟨Valid'.balanceL vl h.right H, ?_⟩
    rw [jinsertMin, size_balanceL vl.3 h.3.2.2 vl.2 h.2.2.2 H, e, size_node, h.2.1]
    omega

theorem valid'_jinsertMax {t : Ordnode α} {x : α} {o₁ o₂} (h : Valid' o₁ t ↑x)
    (hb : Bounded nil ↑x o₂) :
    Valid' o₁ (jinsertMax t x) o₂ ∧ size (jinsertMax t x) = size t + 1 := by
  have := valid'_jinsertMin h.dual hb.dual
  rwa [← dual_jinsertMax, size_dual, size_dual, ← Valid'.dual_iff] at this

theorem valid'_jlink_aux₁ {ls rs : ℕ} {rl : Ordnode α} {rx rr t o₁ o₂ b}
    (hr : Valid' b (node rs rl rx rr) o₂) (hls : 1 ≤ ls) (h : delta * ls < rs)
    (v : Valid' o₁ t ↑rx) (e : size t = ls + size rl + 1) :
    Valid' o₁ (balanceL t rx rr) o₂ ∧ size (balanceL t rx rr) = ls + rs + 1 := by
  rw [hr.2.1, delta] at h
  rcases hr.3.1 with H | ⟨hr₁, hr₂⟩
  · exact absurd h (by omega)
  · have H₁ : size t = 0 → size rr ≤ 1 := by rw [e]; omega
    have H₂ : 1 ≤ size t → 1 ≤ size rr → size rr ≤ delta * size t := by
      intro _ _
      rw [e]
      unfold delta at hr₂ ⊢
      omega
    have H₃ : 2 * size t ≤ 9 * size rr + 5 ∨ size t ≤ 3 := by
      left
      rw [e]
      unfold delta at hr₁
      omega
    refine ⟨Valid'.balanceL_aux v hr.right H₁ H₂ H₃, ?_⟩
    rw [balanceL_eq_balance v.2 hr.2.2.2 H₁ H₂, balance_eq_balance' v.3 hr.3.2.2 v.2 hr.2.2.2,
      size_balance' v.2 hr.2.2.2, e, hr.2.1]
    omega

theorem valid'_jlink : ∀ {l : Ordnode α} {x : α} {r : Ordnode α} {o₁ o₂},
    Valid' o₁ l ↑x → Valid' ↑x r o₂ →
    Valid' o₁ (jlink l x r) o₂ ∧ size (jlink l x r) = size l + size r + 1
  | nil, x, r, o₁, o₂, hl, hr => by
    rw [jlink_nil_left]
    simpa using valid'_jinsertMin hr hl.1
  | node ls ll lx lr, x, nil, o₁, o₂, hl, hr => by
    rw [jlink_node_nil]
    simpa using valid'_jinsertMax hl hr.1
  | node ls ll lx lr, x, node rs rl rx rr, o₁, o₂, hl, hr => by
    rw [jlink_node_node]
    by_cases h₁ : delta * ls < rs
    · rw [if_pos h₁]
      rcases valid'_jlink hl hr.left with ⟨v, e⟩
      have e' : size (jlink (node ls ll lx lr) x rl) = ls + size rl + 1 := by
        rw [e]; rfl
      rcases valid'_jlink_aux₁ hr hl.2.pos h₁ v e' with ⟨hv, hs⟩
      refine ⟨hv, ?_⟩
      rw [hs, size_node, size_node]
    · rw [if_neg h₁]
      by_cases h₂ : delta * rs < ls
      · rw [if_pos h₂]
        rcases valid'_jlink hl.right hr with ⟨v, e⟩
        have e' : size (dual (jlink lr x (node rs rl rx rr))) = rs + size (dual lr) + 1 := by
          rw [size_dual, size_dual, e, size_node]
          omega
        have := valid'_jlink_aux₁ hl.dual hr.2.pos h₂ v.dual e'
        rw [← dual_balanceR, ← Valid'.dual_iff, size_dual] at this
        refine ⟨this.1, ?_⟩
        rw [this.2, size_node, size_node]
        omega
      · rw [if_neg h₂]
        refine ⟨Valid'.node' hl hr (Or.inr ⟨?_, ?_⟩), rfl⟩
        · simpa using not_lt.1 h₂
        · simpa using not_lt.1 h₁
  termination_by l x r o₁ o₂ _ _ => realSize l + realSize r
  decreasing_by
  · simp only [realSize]; omega
  · simp only [realSize]; omega

end

end Ordnode

namespace Ordnode

variable {α : Type*}

theorem toList_node' {l : Ordnode α} {x r} : toList (node' l x r) = toList l ++ x :: toList r := by
  simp [node']

theorem toList_node3L {l : Ordnode α} {x m y r} :
    toList (node3L l x m y r) = toList l ++ x :: toList m ++ y :: toList r := by
  simp [node3L, toList_node']

theorem toList_node3R {l : Ordnode α} {x m y r} :
    toList (node3R l x m y r) = toList l ++ x :: toList m ++ y :: toList r := by
  simp [node3R, toList_node']

theorem toList_node4L {l : Ordnode α} {x m y r} :
    toList (node4L l x m y r) = toList l ++ x :: toList m ++ y :: toList r := by
  cases m <;> simp [node4L, toList_node3L, toList_node']

theorem toList_node4R {l : Ordnode α} {x m y r} :
    toList (node4R l x m y r) = toList l ++ x :: toList m ++ y :: toList r := by
  cases m <;> simp [node4R, toList_node3R, toList_node']

theorem toList_rotateL {l : Ordnode α} {x r} :
    toList (rotateL l x r) = toList l ++ x :: toList r := by
  cases r with
  | nil => simp [rotateL_nil, toList_node']
  | node sz m y rr =>
    rw [rotateL_node]
    split_ifs <;> simp [toList_node3L, toList_node4L]

theorem toList_rotateR {l : Ordnode α} {x r} :
    toList (rotateR l x r) = toList l ++ x :: toList r := by
  cases l with
  | nil => simp [rotateR_nil, toList_node']
  | node sz ll y m =>
    rw [rotateR_node]
    split_ifs <;> simp [toList_node3R, toList_node4R]

theorem toList_balance' {l : Ordnode α} {x r} :
    toList (balance' l x r) = toList l ++ x :: toList r := by
  unfold balance'
  split_ifs <;> simp [toList_node', toList_rotateL, toList_rotateR]

section

variable [Preorder α]

/-- Under the size conditions arising at the `balanceL` call sites of `jlink` and
`merge`, `balanceL` agrees with the clean rebalancing function `balance'`. -/
theorem jbalanceL_eq_balance' {rs : ℕ} {rl : Ordnode α} {rx rr t o₁ o₂ b} {ls : ℕ}
    (hr : Valid' b (node rs rl rx rr) o₂) (v : Valid' o₁ t ↑rx)
    (hls : 1 ≤ ls) (h : delta * ls < rs) (ht : 1 ≤ size t)
    (e₁ : size rl ≤ size t) (_e₂ : size t ≤ ls + size rl + 1) :
    balanceL t rx rr = balance' t rx rr := by
  rw [hr.2.1, delta] at h
  rcases hr.3.1 with H | ⟨hr₁, hr₂⟩
  · exact absurd h (by omega)
  · have H₁ : size t = 0 → size rr ≤ 1 := by omega
    have H₂ : 1 ≤ size t → 1 ≤ size rr → size rr ≤ delta * size t := by
      intro _ _
      unfold delta at hr₂ ⊢
      omega
    rw [balanceL_eq_balance v.2 hr.2.2.2 H₁ H₂, balance_eq_balance' v.3 hr.3.2.2 v.2 hr.2.2.2]

theorem toList_jinsertMin : ∀ {t : Ordnode α} {x : α} {o₁ : WithBot α} {o₂ : WithTop α},
    Valid' ↑x t o₂ → Bounded nil o₁ ↑x → toList (jinsertMin x t) = x :: toList t
  | nil, x, o₁, o₂, _, _ => rfl
  | node s l y r, x, o₁, o₂, h, hb => by
    rcases valid'_jinsertMin h.left hb with ⟨vl, e⟩
    have H : (∃ l', Raised l' (size (jinsertMin x l)) ∧ BalancedSz l' (size r)) ∨
        ∃ r', Raised (size r) r' ∧ BalancedSz (size (jinsertMin x l)) r' :=
      Or.inl ⟨size l, Or.inr e, h.3.1⟩
    rw [jinsertMin, balanceL_eq_balance' vl.3 h.3.2.2 vl.2 h.2.2.2 H, toList_balance',
      toList_jinsertMin h.left hb, toList_node]
    rfl

theorem toList_jinsertMax : ∀ {t : Ordnode α} {x : α} {o₁ : WithBot α} {o₂ : WithTop α},
    Valid' o₁ t ↑x → Bounded nil ↑x o₂ → toList (jinsertMax t x) = toList t ++ [x]
  | nil, x, o₁, o₂, _, _ => rfl
  | node s l y r, x, o₁, o₂, h, hb => by
    rcases valid'_jinsertMax h.right hb with ⟨vr, e⟩
    have H : (∃ l', Raised (size l) l' ∧ BalancedSz l' (size (jinsertMax r x))) ∨
        ∃ r', Raised r' (size (jinsertMax r x)) ∧ BalancedSz (size l) r' :=
      Or.inr ⟨size r, Or.inr e, h.3.1⟩
    rw [jinsertMax, balanceR_eq_balance' h.3.2.1 vr.3 h.2.2.1 vr.2 H, toList_balance',
      toList_jinsertMax h.right hb, toList_node]
    simp

theorem toList_jlink : ∀ {l : Ordnode α} {x : α} {r : Ordnode α} {o₁ o₂},
    Valid' o₁ l ↑x → Valid' ↑x r o₂ → toList (jlink l x r) = toList l ++ x :: toList r
  | nil, x, r, o₁, o₂, hl, hr => by
    rw [jlink_nil_left, toList_jinsertMin hr hl.1, toList_nil]
    rfl
  | node ls ll lx lr, x, nil, o₁, o₂, hl, hr => by
    rw [jlink_node_nil, toList_jinsertMax hl hr.1, toList_nil]
  | node ls ll lx lr, x, node rs rl rx rr, o₁, o₂, hl, hr => by
    rw [jlink_node_node]
    by_cases h₁ : delta * ls < rs
    · rw [if_pos h₁]
      rcases valid'_jlink hl hr.left with ⟨v, e⟩
      have e' : size (jlink (node ls ll lx lr) x rl) = ls + size rl + 1 := by
        rw [e]; rfl
      rw [jbalanceL_eq_balance' hr v hl.2.pos h₁ (by omega) (by omega) (by omega),
        toList_balance', toList_jlink hl hr.left, toList_node, toList_node]
      simp
    · rw [if_neg h₁]
      by_cases h₂ : delta * rs < ls
      · rw [if_pos h₂]
        rcases valid'_jlink hl.right hr with ⟨v, e⟩
        have e' : size (dual (jlink lr x (node rs rl rx rr))) = rs + size (dual lr) + 1 := by
          rw [size_dual, size_dual, e, size_node]
          omega
        have heq := jbalanceL_eq_balance' hl.dual v.dual hr.2.pos h₂
          (by rw [e']; omega) (by rw [e']; omega) (le_of_eq e')
        have : balanceR ll lx (jlink lr x (node rs rl rx rr)) =
            balance' ll lx (jlink lr x (node rs rl rx rr)) := by
          rw [← dual_dual (balanceR ll lx (jlink lr x (node rs rl rx rr))), dual_balanceR, heq,
            dual_balance', dual_dual, dual_dual]
        rw [this, toList_balance', toList_jlink hl.right hr, toList_node]
        simp
      · rw [if_neg h₂, toList_node', toList_node]
  termination_by l x r o₁ o₂ _ _ => realSize l + realSize r
  decreasing_by
  · simp only [realSize]; omega
  · simp only [realSize]; omega

end

end Ordnode

namespace Ordnode

variable {α : Type*} [LinearOrder α]

theorem jsplit_eq : ∀ (x : α) (t : Ordnode α),
    jsplit x t = ((jsplit3 x t).1, (jsplit3 x t).2.2)
  | _, nil => rfl
  | x, node s l y r => by
    simp only [jsplit, jsplit3]
    cases compare x y
    · simp [jsplit_eq x l]
    · rfl
    · simp [jsplit_eq x r]

theorem valid'_jsplit3 : ∀ {t : Ordnode α} {x : α} {o₁ : WithBot α} {o₂ : WithTop α},
    Valid' o₁ t o₂ → Bounded nil o₁ ↑x → Bounded nil ↑x o₂ →
    Valid' o₁ (jsplit3 x t).1 ↑x ∧ Valid' ↑x (jsplit3 x t).2.2 o₂ ∧
      size (jsplit3 x t).1 + size (jsplit3 x t).2.2 +
        ((jsplit3 x t).2.1.elim 0 fun _ => 1) = size t ∧
      ((jsplit3 x t).2.1 = none ∨ (jsplit3 x t).2.1 = some x) ∧
      toList t = toList (jsplit3 x t).1 ++ (jsplit3 x t).2.1.toList ++ toList (jsplit3 x t).2.2
  | nil, x, o₁, o₂, _, hb₁, hb₂ => ⟨valid'_nil hb₁, valid'_nil hb₂, rfl, Or.inl rfl, rfl⟩
  | node s l y r, x, o₁, o₂, h, hb₁, hb₂ => by
    simp only [jsplit3]
    cases hc : compare x y with
    | lt =>
      have hxy : x < y := compare_lt_iff_lt.1 hc
      rcases valid'_jsplit3 h.left hb₁ hxy with ⟨v₁, v₂, hsz, hm, htl⟩
      rcases valid'_jlink v₂ h.right with ⟨vl, el⟩
      refine ⟨v₁, vl, ?_, hm, ?_⟩
      · simp only [size_node]
        rw [el, h.2.1, ← hsz]
        omega
      · rw [toList_node, toList_jlink v₂ h.right, htl]
        simp
    | eq =>
      have hxy : x = y := compare_eq_iff_eq.1 hc
      subst hxy
      refine ⟨h.left, h.right, ?_, Or.inr rfl, by simp⟩
      simp only [size_node, Option.elim]
      rw [h.2.1]
    | gt =>
      have hxy : y < x := compare_gt_iff_gt.1 hc
      rcases valid'_jsplit3 h.right hxy hb₂ with ⟨v₁, v₂, hsz, hm, htl⟩
      rcases valid'_jlink h.left v₁ with ⟨vl, el⟩
      refine ⟨vl, v₂, ?_, hm, ?_⟩
      · simp only [size_node]
        rw [el, h.2.1, ← hsz]
        omega
      · rw [toList_node, toList_jlink h.left v₁, htl]
        simp

end Ordnode

namespace Ordnode

variable {α : Type*} [LinearOrder α]

theorem valid'_junion : ∀ {t₁ t₂ : Ordnode α} {o₁ : WithBot α} {o₂ : WithTop α},
    Valid' o₁ t₁ o₂ → Valid' o₁ t₂ o₂ → Valid' o₁ (junion t₁ t₂) o₂
  | nil, _, _, _, _, h₂ => by simpa [junion] using h₂
  | node _ _ _ _, nil, _, _, h₁, _ => by simpa [junion] using h₁
  | node s₁ l₁ x r₁, node s₂ l₂ y r₂, o₁, o₂, h₁, h₂ => by
    simp only [junion, jsplit_eq]
    have hb₁ : Bounded nil o₁ ↑x := h₁.1.1.to_nil
    have hb₂ : Bounded nil ↑x o₂ := h₁.1.2.to_nil
    rcases valid'_jsplit3 h₂ hb₁ hb₂ with ⟨v₁, v₂, -, -, -⟩
    exact (valid'_jlink (valid'_junion h₁.left v₁) (valid'_junion h₁.right v₂)).1

theorem valid'_jinter : ∀ {t₁ t₂ : Ordnode α} {o₁ : WithBot α} {o₂ : WithTop α},
    Valid' o₁ t₁ o₂ → Valid' o₁ t₂ o₂ → Valid' o₁ (jinter t₁ t₂) o₂
  | nil, _, _, _, h₁, _ => by simpa [jinter] using h₁
  | node _ _ _ _, nil, _, _, _, h₂ => by simpa [jinter] using h₂
  | node s₁ l₁ x r₁, node s₂ l₂ y r₂, o₁, o₂, h₁, h₂ => by
    simp only [jinter]
    have hb₁ : Bounded nil o₁ ↑x := h₁.1.1.to_nil
    have hb₂ : Bounded nil ↑x o₂ := h₁.1.2.to_nil
    rcases valid'_jsplit3 h₂ hb₁ hb₂ with ⟨v₁, v₂, -, -, -⟩
    have u₁ := valid'_jinter h₁.left v₁
    have u₂ := valid'_jinter h₁.right v₂
    split_ifs with hm
    · exact (valid'_jlink u₁ u₂).1
    · exact (Valid'.merge_aux (u₁.trans_right u₂.1) (Valid'.trans_left u₁.1 u₂)
        (u₁.1.to_sep u₂.1)).1

theorem valid'_jdiff : ∀ {t₁ t₂ : Ordnode α} {o₁ : WithBot α} {o₂ : WithTop α},
    Valid' o₁ t₁ o₂ → Valid' o₁ t₂ o₂ → Valid' o₁ (jdiff t₁ t₂) o₂
  | _, nil, _, _, h₁, _ => by simpa [jdiff] using h₁
  | nil, node _ _ _ _, _, _, h₁, _ => by simpa [jdiff] using h₁
  | node s₁ l₁ x r₁, node s₂ l₂ y r₂, o₁, o₂, h₁, h₂ => by
    simp only [jdiff, jsplit_eq]
    have hb₁ : Bounded nil o₁ ↑y := h₂.1.1.to_nil
    have hb₂ : Bounded nil ↑y o₂ := h₂.1.2.to_nil
    rcases valid'_jsplit3 h₁ hb₁ hb₂ with ⟨v₁, v₂, -, -, -⟩
    have u₁ := valid'_jdiff v₁ h₂.left
    have u₂ := valid'_jdiff v₂ h₂.right
    exact (Valid'.merge_aux (u₁.trans_right u₂.1) (Valid'.trans_left u₁.1 u₂)
      (u₁.1.to_sep u₂.1)).1

theorem valid'_jtakeAux : ∀ {t : Ordnode α} {n : ℕ} {o₁ : WithBot α} {o₂ : WithTop α},
    Valid' o₁ t o₂ → Valid' o₁ (jtakeAux n t) o₂
  | nil, _, _, _, h => by simpa [jtakeAux] using h
  | node s l x r, n, o₁, o₂, h => by
    simp only [jtakeAux]
    split_ifs with hn
    · exact (valid'_jtakeAux h.left).trans_right h.right.1
    · exact (valid'_jlink h.left (valid'_jtakeAux h.right)).1

theorem valid'_jtake (n : ℕ) {t : Ordnode α} {o₁ : WithBot α} {o₂ : WithTop α}
    (h : Valid' o₁ t o₂) : Valid' o₁ (jtake n t) o₂ := by
  rw [jtake]
  split_ifs with hn
  · exact h
  · exact valid'_jtakeAux h

theorem valid'_jdropAux : ∀ {t : Ordnode α} {n : ℕ} {o₁ : WithBot α} {o₂ : WithTop α},
    Valid' o₁ t o₂ → Valid' o₁ (jdropAux n t) o₂
  | nil, _, _, _, h => by simpa [jdropAux] using h
  | node s l x r, n, o₁, o₂, h => by
    simp only [jdropAux]
    split_ifs with hn
    · exact (valid'_jlink (valid'_jdropAux h.left) h.right).1
    · exact Valid'.trans_left h.left.1 (valid'_jdropAux h.right)

theorem valid'_jdrop (n : ℕ) {t : Ordnode α} {o₁ : WithBot α} {o₂ : WithTop α}
    (h : Valid' o₁ t o₂) : Valid' o₁ (jdrop n t) o₂ := by
  rw [jdrop]
  split_ifs with hn
  · exact valid'_nil h.1.to_nil
  · exact valid'_jdropAux h

end Ordnode

namespace Ordnode

variable {α : Type*}

theorem toList_dual : ∀ t : Ordnode α, toList (dual t) = (toList t).reverse
  | nil => rfl
  | node s l x r => by
    rw [dual, toList_node, toList_node, toList_dual l, toList_dual r]
    simp

section

variable [Preorder α]

theorem toList_eraseMax_aux {s l} {x : α} {r : Ordnode α} {o₁ o₂}
    (H : Valid' o₁ (node s l x r) o₂) :
    toList (node' l x r) = toList (eraseMax (node' l x r)) ++ [findMax' x r] := by
  have := H.2.eq_node'; rw [this] at H; clear this
  induction' r with rs rl rx rr _ IHrr generalizing l x o₁
  · simp [eraseMax, findMax', toList_node']
  · have := H.2.2.2.eq_node'; rw [this] at H ⊢
    have h := (Valid'.eraseMax_aux H.right).1
    have e := (Valid'.eraseMax_aux H.right).2
    have HOr : (∃ l', Raised l' (size l) ∧
          BalancedSz l' (size (eraseMax (node' rl rx rr)))) ∨
        ∃ r', Raised (size (eraseMax (node' rl rx rr))) r' ∧ BalancedSz (size l) r' :=
      Or.inr ⟨_, Or.inr e, H.3.1⟩
    rw [toList_node', IHrr H.right, eraseMax, findMax',
      balanceL_eq_balance' H.3.2.1 h.3 H.2.2.1 h.2 HOr, toList_balance']
    simp

theorem toList_eraseMin_aux {s l} {x : α} {r : Ordnode α} {o₁ o₂}
    (H : Valid' o₁ (node s l x r) o₂) :
    toList (node' l x r) = findMin' l x :: toList (eraseMin (node' l x r)) := by
  have := toList_eraseMax_aux H.dual
  rw [← dual_node', toList_dual, ← dual_eraseMin, toList_dual, findMax'_dual] at this
  have := congrArg List.reverse this
  simpa using this

theorem toList_glue {l r : Ordnode α} {o₁ o₂ o₃ o₄}
    (hl : Valid' o₁ l o₂) (hr : Valid' o₃ r o₄) (bal : BalancedSz (size l) (size r)) :
    toList (glue l r) = toList l ++ toList r := by
  cases' l with ls ll lx lr
  · simp [glue]
  cases' r with rs rl rx rr
  · simp [glue]
  dsimp [glue]; split_ifs
  · rw [splitMax_eq]
    have h := (Valid'.eraseMax_aux hl).1
    have e := (Valid'.eraseMax_aux hl).2
    have HOr : (∃ l', Raised (size (eraseMax (node' ll lx lr))) l' ∧
          BalancedSz l' (size (node rs rl rx rr))) ∨
        ∃ r', Raised r' (size (node rs rl rx rr)) ∧
          BalancedSz (size (eraseMax (node' ll lx lr))) r' := by
      refine Or.inl ⟨_, Or.inr e, ?_⟩
      rwa [hl.2.eq_node'] at bal
    rw [balanceR_eq_balance' h.3 hr.3 h.2 hr.2 HOr, toList_balance']
    have := toList_eraseMax_aux hl
    rw [← hl.2.eq_node'] at this
    rw [this, hl.2.eq_node']
    simp
  · rw [splitMin_eq]
    have h := (Valid'.eraseMin_aux hr).1
    have e := (Valid'.eraseMin_aux hr).2
    have HOr : (∃ l', Raised l' (size (node ls ll lx lr)) ∧
          BalancedSz l' (size (eraseMin (node' rl rx rr)))) ∨
        ∃ r', Raised (size (eraseMin (node' rl rx rr))) r' ∧
          BalancedSz (size (node ls ll lx lr)) r' := by
      refine Or.inr ⟨_, Or.inr e, ?_⟩
      rwa [hr.2.eq_node'] at bal
    rw [balanceL_eq_balance' hl.3 h.3 hl.2 h.2 HOr, toList_balance']
    have := toList_eraseMin_aux hr
    rw [← hr.2.eq_node'] at this
    rw [this, hr.2.eq_node']

end

end Ordnode

namespace Ordnode

variable {α : Type*}

section

variable [Preorder α]

theorem toList_merge {l r : Ordnode α} {o₁ o₂} (hl : Valid' o₁ l o₂) (hr : Valid' o₁ r o₂)
    (sep : l.All fun x => r.All fun y => x < y) :
    toList (merge l r) = toList l ++ toList r := by
  induction' l with ls ll lx lr _ IHlr generalizing o₁ o₂ r
  · simp
  induction' r with rs rl rx rr IHrl _ generalizing o₁ o₂
  · simp
  rw [merge_node]
  split_ifs with h h_1
  · have vl := hl.of_lt hr.1.1.to_nil (sep.imp fun x h => h.2.1)
    have v := (Valid'.merge_aux vl hr.left (sep.imp fun x h => h.1)).1
    have e := (Valid'.merge_aux vl hr.left (sep.imp fun x h => h.1)).2
    rw [jbalanceL_eq_balance' hr v hl.2.pos h
        (by rw [e, size_node]; have := hl.2.pos; omega)
        (by rw [e, size_node]; omega) (by rw [e, size_node]; omega),
      toList_balance', IHrl vl hr.left (sep.imp fun x h => h.1), toList_node]
    simp
  · have vr := hr.of_gt hl.1.2.to_nil sep.2.1
    have v := (Valid'.merge_aux hl.right vr sep.2.2).1
    have e := (Valid'.merge_aux hl.right vr sep.2.2).2
    have heq := jbalanceL_eq_balance' hl.dual v.dual hr.2.pos h_1
      (by rw [size_dual, e, size_node]; have := hr.2.pos; omega)
      (by rw [size_dual, size_dual, e, size_node]; omega)
      (by rw [size_dual, size_dual, e, size_node]; omega)
    have heq2 : balanceR ll lx (merge lr (node rs rl rx rr)) =
        balance' ll lx (merge lr (node rs rl rx rr)) := by
      rw [← dual_dual (balanceR ll lx (merge lr (node rs rl rx rr))), dual_balanceR, heq,
        dual_balance', dual_dual, dual_dual]
    rw [heq2, toList_balance', IHlr hl.right vr sep.2.2, toList_node]
    simp
  · rw [toList_glue hl hr
      (Or.inr ⟨by simpa using not_lt.1 h_1, by simpa using not_lt.1 h⟩)]

theorem jpopMin_spec {t : Ordnode α} (h : Valid t) (hne : t ≠ nil) :
    ∃ m t', jpopMin t = (some m, t') ∧ toList t = m :: toList t' ∧ Valid t' ∧
      size t = size t' + 1 := by
  cases t with
  | nil => exact absurd rfl hne
  | node s l x r =>
    have hsm := splitMin_eq s l x r
    refine ⟨(splitMin' l x r).1, (splitMin' l x r).2, rfl, ?_, ?_, ?_⟩
    · rw [hsm]
      have := toList_eraseMin_aux h
      rwa [← h.2.eq_node'] at this
    · rw [hsm]
      exact eraseMin.valid h
    · rw [hsm]
      have := (Valid'.eraseMin_aux h).2
      rwa [← h.2.eq_node'] at this

end

end Ordnode

namespace Ordnode

variable {α : Type*}

theorem all_mem_toList {P : α → Prop} {t : Ordnode α} (h : All P t) {a : α}
    (ha : a ∈ toList t) : P a :=
  all_iff_forall.1 h _ (emem_iff_mem_toList.2 ha)

theorem sorted_toList [Preorder α] : ∀ {t : Ordnode α} {o₁ o₂}, Bounded t o₁ o₂ →
    (toList t).Sorted (· < ·)
  | nil, _, _, _ => List.sorted_nil
  | node s l x r, o₁, o₂, hb => by
    rw [toList_node]
    show List.Pairwise (· < ·) (toList l ++ x :: toList r)
    rw [List.pairwise_append]
    refine ⟨sorted_toList hb.1, ?_, ?_⟩
    · rw [List.pairwise_cons]
      exact ⟨fun b hb' => all_mem_toList hb.2.mem_gt hb', sorted_toList hb.2⟩
    · intro a ha b hbm
      rcases List.mem_cons.1 hbm with rfl | hbm
      · exact all_mem_toList hb.1.mem_lt ha
      · exact lt_trans (all_mem_toList hb.1.mem_lt ha) (all_mem_toList hb.2.mem_gt hbm)

/-- Proof-layer membership test by three-way comparison, mirroring the engine's
`contains_key`. -/
def jmem [LinearOrder α] (x : α) : Ordnode α → Bool
  | nil => false
  | node _ l y r =>
    match compare x y with
    | Ordering.lt => jmem x l
    | Ordering.eq => true
    | Ordering.gt => jmem x r

theorem cmpLE_eq_compare [LinearOrder α] (x y : α) : cmpLE x y = compare x y := by
  rw [cmpLE_eq_cmp, cmp_eq_compare]

theorem jmem_iff [LinearOrder α] {x : α} : ∀ {t : Ordnode α} {o₁ o₂}, Bounded t o₁ o₂ →
    (jmem x t = true ↔ x ∈ toList t)
  | nil, _, _, _ => by simp [jmem]
  | node s l y r, o₁, o₂, hb => by
    rw [jmem, toList_node]
    cases hc : compare x y with
    | lt =>
      have hxy : x < y := compare_lt_iff_lt.1 hc
      simp only [List.mem_append, List.mem_cons]
      rw [jmem_iff hb.1]
      constructor
      · exact fun h => Or.inl h
      · rintro (h | rfl | h)
        · exact h
        · exact absurd hxy (lt_irrefl x)
        · exact absurd (lt_trans hxy (all_mem_toList hb.2.mem_gt h)) (lt_irrefl x)
    | eq =>
      have hxy : x = y := compare_eq_iff_eq.1 hc
      subst hxy
      simp
    | gt =>
      have hxy : y < x := compare_gt_iff_gt.1 hc
      simp only [List.mem_append, List.mem_cons]
      rw [jmem_iff hb.2]
      constructor
      · exact fun h => Or.inr (Or.inr h)
      · rintro (h | rfl | h)
        · exact absurd (lt_trans hxy (all_mem_toList hb.1.mem_lt h)) (lt_irrefl y)
        · exact absurd hxy (lt_irrefl x)
        · exact h

theorem balance'_eq_node' {l : Ordnode α} {x r} (bal : BalancedSz (size l) (size r)) :
    balance' l x r = node' l x r := by
  unfold balance'
  rcases bal with h | ⟨h₁, h₂⟩
  · rw [if_pos h]
  · split_ifs with h₃ h₄ h₅
    · rfl
    · exfalso; unfold delta at h₂ h₄; omega
    · exfalso; unfold delta at h₁ h₅; omega
    · rfl

/-- Two strictly sorted lists with the same members are equal. -/
theorem sortedLt_eq [LinearOrder α] {l₁ l₂ : List α} (s₁ : l₁.Sorted (· < ·))
    (s₂ : l₂.Sorted (· < ·)) (h : ∀ a, a ∈ l₁ ↔ a ∈ l₂) : l₁ = l₂ :=
  List.eq_of_perm_of_sorted ((List.perm_ext_iff_of_nodup s₁.nodup s₂.nodup).2 h) s₁ s₂

end Ordnode

namespace Ordnode

variable {α : Type*} [LinearOrder α]

theorem insert_valid_aux {x : α} {t : Ordnode α} {o₁ o₂} (h : Valid' o₁ t o₂)
    (bl : Bounded nil o₁ ↑x) (br : Bounded nil ↑x o₂) :
    Valid' o₁ (Ordnode.insert x t) o₂ ∧ Raised (size t) (size (Ordnode.insert x t)) := by
  rw [insert_eq_insertWith]
  exact insertWith.valid_aux (fun _ => x) x (fun _ _ => ⟨le_rfl, le_rfl⟩) h bl br

theorem mem_toList_insert {x : α} : ∀ {t : Ordnode α} {o₁ o₂}, Valid' o₁ t o₂ →
    Bounded nil o₁ ↑x → Bounded nil ↑x o₂ →
    ∀ a, (a ∈ toList (Ordnode.insert x t) ↔ a = x ∨ a ∈ toList t)
  | nil, o₁, o₂, _, _, _ => by
    intro a
    simp [Ordnode.insert, Ordnode.singleton]
  | node sz l y r, o₁, o₂, h, bl, br => by
    simp only [Ordnode.insert, cmpLE_eq_compare]
    cases hc : compare x y with
    | lt =>
      have hxy : x < y := compare_lt_iff_lt.1 hc
      rcases insert_valid_aux h.left bl hxy with ⟨vl, rl⟩
      have HOr : (∃ l', Raised l' (size (Ordnode.insert x l)) ∧ BalancedSz l' (size r)) ∨
          ∃ r', Raised (size r) r' ∧ BalancedSz (size (Ordnode.insert x l)) r' :=
        Or.inl ⟨size l, rl, h.3.1⟩
      rw [balanceL_eq_balance' vl.3 h.3.2.2 vl.2 h.2.2.2 HOr, toList_balance']
      intro a
      have IH := mem_toList_insert h.left bl hxy a
      rw [toList_node]
      simp only [List.mem_append, List.mem_cons] at *
      tauto
    | eq =>
      have hxy : x = y := compare_eq_iff_eq.1 hc
      subst hxy
      intro a
      simp only [toList_node, List.mem_append, List.mem_cons]
      tauto
    | gt =>
      have hxy : y < x := compare_gt_iff_gt.1 hc
      rcases insert_valid_aux h.right hxy br with ⟨vr, rr⟩
      have HOr : (∃ l', Raised (size l) l' ∧ BalancedSz l' (size (Ordnode.insert x r))) ∨
          ∃ r', Raised r' (size (Ordnode.insert x r)) ∧ BalancedSz (size l) r' :=
        Or.inr ⟨size r, rr, h.3.1⟩
      rw [balanceR_eq_balance' h.3.2.1 vr.3 h.2.2.1 vr.2 HOr, toList_balance']
      intro a
      have IH := mem_toList_insert h.right hxy br a
      rw [toList_node]
      simp only [List.mem_append, List.mem_cons] at *
      tauto

theorem size_insert {x : α} : ∀ {t : Ordnode α} {o₁ o₂}, Valid' o₁ t o₂ →
    Bounded nil o₁ ↑x → Bounded nil ↑x o₂ →
    size (Ordnode.insert x t) = size t + (if jmem x t then 0 else 1)
  | nil, o₁, o₂, _, _, _ => by simp [Ordnode.insert, jmem, Ordnode.singleton]
  | node sz l y r, o₁, o₂, h, bl, br => by
    simp only [Ordnode.insert, cmpLE_eq_compare]
    cases hc : compare x y with
    | lt =>
      have hxy : x < y := compare_lt_iff_lt.1 hc
      have hmm : jmem x (node sz l y r) = jmem x l := by simp [jmem, hc]
      rcases insert_valid_aux h.left bl hxy with ⟨vl, rl⟩
      have HOr : (∃ l', Raised l' (size (Ordnode.insert x l)) ∧ BalancedSz l' (size r)) ∨
          ∃ r', Raised (size r) r' ∧ BalancedSz (size (Ordnode.insert x l)) r' :=
        Or.inl ⟨size l, rl, h.3.1⟩
      rw [size_balanceL vl.3 h.3.2.2 vl.2 h.2.2.2 HOr, size_insert h.left bl hxy, size_node,
        hmm, h.2.1]
      split_ifs <;> omega
    | eq =>
      have hmm : jmem x (node sz l y r) = true := by simp [jmem, hc]
      rw [hmm]
      simp [size_node]
    | gt =>
      have hxy : y < x := compare_gt_iff_gt.1 hc
      have hmm : jmem x (node sz l y r) = jmem x r := by simp [jmem, hc]
      rcases insert_valid_aux h.right hxy br with ⟨vr, rr⟩
      have HOr : (∃ l', Raised (size l) l' ∧ BalancedSz l' (size (Ordnode.insert x r))) ∨
          ∃ r', Raised r' (size (Ordnode.insert x r)) ∧ BalancedSz (size l) r' :=
        Or.inr ⟨size r, rr, h.3.1⟩
      rw [size_balanceR h.3.2.1 vr.3 h.2.2.1 vr.2 HOr, size_insert h.right hxy br, size_node,
        hmm, h.2.1]
      split_ifs <;> omega

theorem mem_toList_erase {x : α} : ∀ {t : Ordnode α} {o₁ o₂}, Valid' o₁ t o₂ →
    ∀ a, (a ∈ toList (erase x t) ↔ a ∈ toList t ∧ a ≠ x)
  | nil, o₁, o₂, _, _ => by simp [erase]
  | node sz l y r, o₁, o₂, h, a => by
    simp only [erase, cmpLE_eq_compare]
    cases hc : compare x y with
    | lt =>
      have hxy : x < y := compare_lt_iff_lt.1 hc
      rcases Valid'.erase_aux x h.left with ⟨vl, rl⟩
      have HOr : (∃ l', Raised (size (erase x l)) l' ∧ BalancedSz l' (size r)) ∨
          ∃ r', Raised r' (size r) ∧ BalancedSz (size (erase x l)) r' :=
        Or.inl ⟨size l, rl, h.3.1⟩
      rw [balanceR_eq_balance' vl.3 h.3.2.2 vl.2 h.2.2.2 HOr, toList_balance']
      have IH := mem_toList_erase (x := x) h.left a
      have hy : a ∈ toList r → y < a := fun hr => all_mem_toList h.1.2.mem_gt hr
      rw [toList_node]
      simp only [List.mem_append, List.mem_cons] at *
      constructor
      · rintro (h' | rfl | h')
        · exact ⟨Or.inl (IH.1 h').1, (IH.1 h').2⟩
        · exact ⟨Or.inr (Or.inl rfl), fun hax => absurd hxy (by rw [hax]; exact lt_irrefl _)⟩
        · exact ⟨Or.inr (Or.inr h'), fun hax =>
            absurd (lt_trans hxy (hy h')) (by rw [hax]; exact lt_irrefl _)⟩
      · rintro ⟨h' | rfl | h', hne⟩
        · exact Or.inl (IH.2 ⟨h', hne⟩)
        · exact Or.inr (Or.inl rfl)
        · exact Or.inr (Or.inr h')
    | eq =>
      have hxy : x = y := compare_eq_iff_eq.1 hc
      subst hxy
      rw [toList_glue h.left h.right h.3.1, toList_node]
      have hl' : a ∈ toList l → a < x := fun hl => all_mem_toList h.1.1.mem_lt hl
      have hr' : a ∈ toList r → x < a := fun hr => all_mem_toList h.1.2.mem_gt hr
      simp only [List.mem_append, List.mem_cons]
      constructor
      · rintro (h' | h')
        · exact ⟨Or.inl h', ne_of_lt (hl' h')⟩
        · exact ⟨Or.inr (Or.inr h'), ne_of_gt (hr' h')⟩
      · rintro ⟨h' | rfl | h', hne⟩
        · exact Or.inl h'
        · exact absurd rfl hne
        · exact Or.inr h'
    | gt =>
      have hxy : y < x := compare_gt_iff_gt.1 hc
      rcases Valid'.erase_aux x h.right with ⟨vr, rr⟩
      have HOr : (∃ l', Raised l' (size l) ∧ BalancedSz l' (size (erase x r))) ∨
          ∃ r', Raised (size (erase x r)) r' ∧ BalancedSz (size l) r' :=
        Or.inr ⟨size r, rr, h.3.1⟩
      rw [balanceL_eq_balance' h.3.2.1 vr.3 h.2.2.1 vr.2 HOr, toList_balance']
      have IH := mem_toList_erase (x := x) h.right a
      have hy : a ∈ toList l → a < y := fun hl => all_mem_toList h.1.1.mem_lt hl
      rw [toList_node]
      simp only [List.mem_append, List.mem_cons] at *
      constructor
      · rintro (h' | rfl | h')
        · exact ⟨Or.inl h', fun hax =>
            absurd (lt_trans hxy (by rw [← hax]; exact hy h')) (lt_irrefl _)⟩
        · exact ⟨Or.inr (Or.inl rfl), fun hax => absurd hxy (by rw [← hax]; exact lt_irrefl _)⟩
        · exact ⟨Or.inr (Or.inr (IH.1 h').1), (IH.1 h').2⟩
      · rintro ⟨h' | rfl | h', hne⟩
        · exact Or.inl h'
        · exact Or.inr (Or.inl rfl)
        · exact Or.inr (Or.inr (IH.2 ⟨h', hne⟩))

theorem erase_of_not_mem {x : α} : ∀ {t : Ordnode α} {o₁ o₂}, Valid' o₁ t o₂ →
    jmem x t = false → erase x t = t
  | nil, _, _, _, _ => rfl
  | node sz l y r, o₁, o₂, h, hm => by
    simp only [jmem] at hm
    simp only [erase, cmpLE_eq_compare]
    cases hc : compare x y with
    | lt =>
      simp only [hc] at hm
      rw [erase_of_not_mem h.left hm]
      have HOr : (∃ l', Raised (size l) l' ∧ BalancedSz l' (size r)) ∨
          ∃ r', Raised r' (size r) ∧ BalancedSz (size l) r' :=
        Or.inl ⟨size l, Or.inl rfl, h.3.1⟩
      rw [balanceR_eq_balance' h.3.2.1 h.3.2.2 h.2.2.1 h.2.2.2 HOr, balance'_eq_node' h.3.1]
      exact h.2.eq_node'.symm
    | eq => simp [hc] at hm
    | gt =>
      simp only [hc] at hm
      rw [erase_of_not_mem h.right hm]
      have HOr : (∃ l', Raised l' (size l) ∧ BalancedSz l' (size r)) ∨
          ∃ r', Raised (size r) r' ∧ BalancedSz (size l) r' :=
        Or.inl ⟨size l, Or.inl rfl, h.3.1⟩
      rw [balanceL_eq_balance' h.3.2.1 h.3.2.2 h.2.2.1 h.2.2.2 HOr, balance'_eq_node' h.3.1]
      exact h.2.eq_node'.symm

end Ordnode

namespace Ordnode

variable {α : Type*} [LinearOrder α]

theorem mem_toList_junion : ∀ {t₁ t₂ : Ordnode α} {o₁ : WithBot α} {o₂ : WithTop α},
    Valid' o₁ t₁ o₂ → Valid' o₁ t₂ o₂ →
    ∀ a, (a ∈ toList (junion t₁ t₂) ↔ a ∈ toList t₁ ∨ a ∈ toList t₂)
  | nil, t₂, _, _, _, _, a => by simp [junion]
  | node s₁ l₁ x r₁, nil, _, _, _, _, a => by simp [junion]
  | node s₁ l₁ x r₁, node s₂ l₂ y r₂, o₁, o₂, h₁, h₂, a => by
    simp only [junion, jsplit_eq]
    have hb₁ : Bounded nil o₁ ↑x := h₁.1.1.to_nil
    have hb₂ : Bounded nil ↑x o₂ := h₁.1.2.to_nil
    rcases valid'_jsplit3 h₂ hb₁ hb₂ with ⟨v₁, v₂, -, hm, htl⟩
    have u₁ := valid'_junion h₁.left v₁
    have u₂ := valid'_junion h₁.right v₂
    have IH₁ := mem_toList_junion h₁.left v₁ a
    have IH₂ := mem_toList_junion h₁.right v₂ a
    rw [toList_jlink u₁ u₂, htl, toList_node]
    rcases hm with hm | hm <;> rw [hm] <;>
      simp only [Option.toList, List.mem_append, List.mem_cons,
        List.not_mem_nil, List.mem_singleton] at * <;> tauto

theorem mem_toList_jinter : ∀ {t₁ t₂ : Ordnode α} {o₁ : WithBot α} {o₂ : WithTop α},
    Valid' o₁ t₁ o₂ → Valid' o₁ t₂ o₂ →
    ∀ a, (a ∈ toList (jinter t₁ t₂) ↔ a ∈ toList t₁ ∧ a ∈ toList t₂)
  | nil, t₂, _, _, _, _, a => by simp [jinter]
  | node s₁ l₁ x r₁, nil, _, _, _, _, a => by simp [jinter]
  | node s₁ l₁ x r₁, node s₂ l₂ y r₂, o₁, o₂, h₁, h₂, a => by
    have hb₁ : Bounded nil o₁ ↑x := h₁.1.1.to_nil
    have hb₂ : Bounded nil ↑x o₂ := h₁.1.2.to_nil
    rcases valid'_jsplit3 h₂ hb₁ hb₂ with ⟨v₁, v₂, -, hm, htl⟩
    rcases e : jsplit3 x (node s₂ l₂ y r₂) with ⟨sl, sm, sr⟩
    rw [e] at v₁ v₂ hm htl
    simp only at v₁ v₂ hm htl
    have u₁ := valid'_jinter h₁.left v₁
    have u₂ := valid'_jinter h₁.right v₂
    have IH₁ := mem_toList_jinter h₁.left v₁ a
    have IH₂ := mem_toList_jinter h₁.right v₂ a
    have hL : a ∈ toList l₁ → a < x := fun hb => all_mem_toList h₁.1.1.mem_lt hb
    have hR : a ∈ toList r₁ → x < a := fun hb => all_mem_toList h₁.1.2.mem_gt hb
    have hSL : a ∈ toList sl → a < x := fun hb => all_mem_toList v₁.1.mem_lt hb
    have hSR : a ∈ toList sr → x < a := fun hb => all_mem_toList v₂.1.mem_gt hb
    have k₁ : ¬(a ∈ toList l₁ ∧ a ∈ toList sr) := fun hk =>
      absurd (lt_trans (hL hk.1) (hSR hk.2)) (lt_irrefl a)
    have k₂ : ¬(a ∈ toList l₁ ∧ a = x) := fun hk =>
      absurd (hL hk.1) (by rw [hk.2]; exact lt_irrefl x)
    have k₃ : ¬(a ∈ toList r₁ ∧ a ∈ toList sl) := fun hk =>
      absurd (lt_trans (hSL hk.2) (hR hk.1)) (lt_irrefl a)
    have k₄ : ¬(a ∈ toList r₁ ∧ a = x) := fun hk =>
      absurd (hR hk.1) (by rw [hk.2]; exact lt_irrefl x)
    have k₅ : ¬(a = x ∧ a ∈ toList sl) := fun hk =>
      absurd (hSL hk.2) (by rw [hk.1]; exact lt_irrefl x)
    have k₆ : ¬(a = x ∧ a ∈ toList sr) := fun hk =>
      absurd (hSR hk.2) (by rw [hk.1]; exact lt_irrefl x)
    simp only [jinter, e]
    rw [htl, toList_node]
    rcases hm with hm | hm <;> subst hm
    · simp only [Option.isSome_none, Bool.false_eq_true, if_false, Option.toList,
        List.nil_append]
      rw [toList_merge (u₁.trans_right u₂.1) (Valid'.trans_left u₁.1 u₂) (u₁.1.to_sep u₂.1)]
      simp only [List.mem_append, List.mem_cons, List.not_mem_nil, Option.toList,
        or_false, false_or] at IH₁ IH₂ ⊢
      itauto
    · simp only [Option.isSome_some, if_true, Option.toList]
      rw [toList_jlink u₁ u₂]
      simp only [List.mem_append, List.mem_cons, List.mem_singleton, List.not_mem_nil,
        Option.toList, or_false, false_or] at IH₁ IH₂ ⊢
      itauto

end Ordnode

namespace Im

/-- Modelled from the spec (§3, data model; the tree engine `map.rs` is not among
the inspected sources): an immutable tree cell holding a key, an associated
value, a left child, a right child, and a cached subtree size; `Empty` is the
canonical zero-size tree. -/
inductive Map (α : Type u) (β : Type v) : Type (max u v)
  | tip : Map α β
  | node (sz : ℕ) (l : Map α β) (k : α) (v : β) (r : Map α β) : Map α β

namespace Map

variable {α : Type u} {β : Type v}

/-- Modelled from the spec (§3, open question on balance constants): the weight
balance constant; the spec requires rebalancing and validation to agree on one
fixed constant, chosen here as `3`. -/
def delta : ℕ := 3

/-- Modelled from the spec (§4.1): the ratio deciding between a single and a
double rotation, chosen as `2` to match the weight balance constant. -/
def ratio : ℕ := 2

/-- Modelled from the spec (§4.1): `empty()`, the canonical zero-size tree. -/
def empty : Map α β := tip

/-- Modelled from the spec (§4.1): `singleton(k,v)`, a one-node tree. -/
def singleton (k : α) (v : β) : Map α β := node 1 tip k v tip

/-- Modelled from the spec (§4.1): `size`, reading the cached field. -/
def size : Map α β → ℕ
  | tip => 0
  | node sz _ _ _ _ => sz

/-- O(n) structural node count, used only as a termination measure. -/
def realSize : Map α β → ℕ
  | tip => 0
  | node _ l _ _ r => realSize l + realSize r + 1

/-- Modelled from the spec (§4.1): rebalance after the left side grew by one or
the right side shrank by one, choosing a single or a double rotation by
comparing the inner and outer grandchild sizes against `ratio`. -/
def balanceL : Map α β → α → β → Map α β → Map α β
  | l, k, v, tip =>
    match l with
    | tip => node 1 tip k v tip
    | node ls ll lk lv lr =>
      match ll, lr with
      | tip, tip => node 2 (node ls ll lk lv lr) k v tip
      | tip, node _ _ lrk lrv _ =>
        node 3 (node 1 tip lk lv tip) lrk lrv (node 1 tip k v tip)
      | node _ _ _ _ _, tip => node 3 ll lk lv (node 1 tip k v tip)
      | node lls _ _ _ _, node lrs lrl lrk lrv lrr =>
        if lrs < ratio * lls then node (ls + 1) ll lk lv (node (lrs + 1) lr k v tip)
        else node (ls + 1) (node (lls + size lrl + 1) ll lk lv lrl) lrk lrv
          (node (size lrr + 1) lrr k v tip)
  | l, k, v, node rs rl rk rv rr =>
    match l with
    | tip => node (rs + 1) tip k v (node rs rl rk rv rr)
    | node ls ll lk lv lr =>
      if ls > delta * rs then
        match ll, lr with
        | node lls _ _ _ _, node lrs lrl lrk lrv lrr =>
          if lrs < ratio * lls then
            node (ls + rs + 1) ll lk lv (node (rs + lrs + 1) lr k v (node rs rl rk rv rr))
          else
            node (ls + rs + 1) (node (lls + size lrl + 1) ll lk lv lrl) lrk lrv
              (node (size lrr + rs + 1) lrr k v (node rs rl rk rv rr))
        | _, _ => tip
      else node (ls + rs + 1) (node ls ll lk lv lr) k v (node rs rl rk rv rr)

/-- Modelled from the spec (§4.1): rebalance after the right side grew by one or
the left side shrank by one. -/
def balanceR : Map α β → α → β → Map α β → Map α β
  | tip, k, v, r =>
    match r with
    | tip => node 1 tip k v tip
    | node rs rl rk rv rr =>
      match rl, rr with
      | tip, tip => node 2 tip k v (node rs rl rk rv rr)
      | node _ _ rlk rlv _, tip =>
        node 3 (node 1 tip k v tip) rlk rlv (node 1 tip rk rv tip)
      | tip, node _ _ _ _ _ => node 3 (node 1 tip k v tip) rk rv rr
      | node rls rll rlk rlv rlr, node rrs _ _ _ _ =>
        if rls < ratio * rrs then node (rs + 1) (node (rls + 1) tip k v rl) rk rv rr
        else node (rs + 1) (node (size rll + 1) tip k v rll) rlk rlv
          (node (size rlr + rrs + 1) rlr rk rv rr)
  | node ls ll lk lv lr, k, v, r =>
    match r with
    | tip => node (ls + 1) (node ls ll lk lv lr) k v tip
    | node rs rl rk rv rr =>
      if rs > delta * ls then
        match rr, rl with
        | node rrs _ _ _ _, node rls rll rlk rlv rlr =>
          if rls < ratio * rrs then
            node (ls + rs + 1) (node (ls + rls + 1) (node ls ll lk lv lr) k v rl) rk rv rr
          else
            node (ls + rs + 1) (node (ls + size rll + 1) (node ls ll lk lv lr) k v rll) rlk rlv
              (node (size rlr + rrs + 1) rlr rk rv rr)
        | _, _ => tip
      else node (ls + rs + 1) (node ls ll lk lv lr) k v (node rs rl rk rv rr)

end Map

end Im

namespace Im

namespace Map

variable {α : Type u} {β : Type v}

/-- Modelled from the spec (§4.1): `insert(Tree, k, v)`; walks down the
comparison path, replaces the value if `k` already exists, otherwise creates a
new leaf, rebalancing every ancestor on the way back up. -/
def insert [LinearOrder α] (k : α) (v : β) : Map α β → Map α β
  | tip => singleton k v
  | node sz l k' v' r =>
    match compare k k' with
    | Ordering.lt => balanceL (insert k v l) k' v' r
    | Ordering.eq => node sz l k v r
    | Ordering.gt => balanceR l k' v' (insert k v r)

/-- Modelled from the spec (§4.1): `contains_key`, a standard BST search. -/
def containsKey [LinearOrder α] (k : α) : Map α β → Bool
  | tip => false
  | node _ l k' _ r =>
    match compare k k' with
    | Ordering.lt => containsKey k l
    | Ordering.eq => true
    | Ordering.gt => containsKey k r

/-- Modelled from the spec (§4.1): extract and remove the minimum entry from a
nonempty tree, rebalancing the ancestors of the removed node. -/
def splitMinAux : Map α β → α → β → Map α β → (α × β) × Map α β
  | tip, k, v, r => ((k, v), r)
  | node _ ll lk lv lr, k, v, r =>
    let p := splitMinAux ll lk lv lr
    (p.1, balanceR p.2 k v r)

/-- Modelled from the spec (§4.1): extract and remove the maximum entry from a
nonempty tree, rebalancing the ancestors of the removed node. -/
def splitMaxAux : Map α β → α → β → Map α β → Map α β × (α × β)
  | l, k, v, tip => (l, (k, v))
  | l, k, v, node _ rl rk rv rr =>
    let p := splitMaxAux rl rk rv rr
    (balanceL l k v p.1, p.2)

/-- Modelled from the spec (§4.1): glue together the two children of a removed
node, picking the new root from the structurally larger child. -/
def glue : Map α β → Map α β → Map α β
  | tip, r => r
  | node ls ll lk lv lr, tip => node ls ll lk lv lr
  | node ls ll lk lv lr, node rs rl rk rv rr =>
    if ls > rs then
      let p := splitMaxAux ll lk lv lr
      balanceR p.1 p.2.1 p.2.2 (node rs rl rk rv rr)
    else
      let p := splitMinAux rl rk rv rr
      balanceL (node ls ll lk lv lr) p.1.1 p.1.2 p.2

/-- Modelled from the spec (§4.1): `delete(Tree, k)`; if the key is absent the
tree is returned unchanged, otherwise the node is removed, its children are
glued back together and the ancestors are rebalanced. -/
def delete [LinearOrder α] (k : α) : Map α β → Map α β
  | tip => tip
  | node _ l k' v' r =>
    match compare k k' with
    | Ordering.lt => balanceR (delete k l) k' v' r
    | Ordering.eq => glue l r
    | Ordering.gt => balanceL l k' v' (delete k r)

/-- Modelled from the spec (§4.1): `pop_min_with_key`, returning the extracted
minimum pair and the tree with it removed. -/
def popMinWithKey : Map α β → Option (α × β) × Map α β
  | tip => (none, tip)
  | node _ l k v r =>
    let p := splitMinAux l k v r
    (some p.1, p.2)

/-- Modelled from the spec (§4.1): insert an entry below all the others,
rebalancing along the left spine. -/
def insertMin (k : α) (v : β) : Map α β → Map α β
  | tip => singleton k v
  | node _ l k' v' r => balanceL (insertMin k v l) k' v' r

/-- Modelled from the spec (§4.1): insert an entry above all the others,
rebalancing along the right spine. -/
def insertMax : Map α β → α → β → Map α β
  | tip, k, v => singleton k v
  | node _ l k' v' r, k, v => balanceR l k' v' (insertMax r k v)

/-- Modelled from the spec (§4.1): the join operation rejoining two trees around
a middle entry, rebalancing by single or double rotations where the child size
ratio violates the weight-balance invariant. -/
def link : Map α β → α → β → Map α β → Map α β
  | tip, k, v, r => insertMin k v r
  | node ls ll lk lv lr, k, v, tip => insertMax (node ls ll lk lv lr) k v
  | node ls ll lk lv lr, k, v, node rs rl rk rv rr =>
    if delta * ls < rs then
      balanceL (link (node ls ll lk lv lr) k v rl) rk rv rr
    else if delta * rs < ls then
      balanceR ll lk lv (link lr k v (node rs rl rk rv rr))
    else node (ls + rs + 1) (node ls ll lk lv lr) k v (node rs rl rk rv rr)
  termination_by l _ _ r => realSize l + realSize r
  decreasing_by
  · simp only [realSize]; omega
  · simp only [realSize]; omega

/-- Modelled from the spec (§4.1): concatenate two trees that are ordered with
respect to each other, with no assumption on their relative sizes. -/
def merge : Map α β → Map α β → Map α β
  | tip, r => r
  | node ls ll lk lv lr, tip => node ls ll lk lv lr
  | node ls ll lk lv lr, node rs rl rk rv rr =>
    if delta * ls < rs then
      balanceL (merge (node ls ll lk lv lr) rl) rk rv rr
    else if delta * rs < ls then
      balanceR ll lk lv (merge lr (node rs rl rk rv rr))
    else glue (node ls ll lk lv lr) (node rs rl rk rv rr)
  termination_by l r => realSize l + realSize r
  decreasing_by
  · simp only [realSize]; omega
  · simp only [realSize]; omega

/-- Modelled from the spec (§4.1): `split(Tree, k)`, returning the entries below
`k` and the entries above `k` as two independently balanced trees, via recursive
split and rejoin, discarding the entry at `k` if present. -/
def split [LinearOrder α] (k : α) : Map α β → Map α β × Map α β
  | tip => (tip, tip)
  | node _ l k' v' r =>
    match compare k k' with
    | Ordering.lt =>
      let s := split k l
      (s.1, link s.2 k' v' r)
    | Ordering.eq => (l, r)
    | Ordering.gt =>
      let s := split k r
      (link l k' v' s.1, s.2)

/-- Modelled from the spec (§4.1): `split_lookup(Tree, k)`, as `split` but also
returning the value at `k` if present. -/
def splitLookup [LinearOrder α] (k : α) : Map α β → Map α β × Option β × Map α β
  | tip => (tip, none, tip)
  | node _ l k' v' r =>
    match compare k k' with
    | Ordering.lt =>
      let s := splitLookup k l
      (s.1, s.2.1, link s.2.2 k' v' r)
    | Ordering.eq => (l, some v', r)
    | Ordering.gt =>
      let s := splitLookup k r
      (link l k' v' s.1, s.2.1, s.2.2)

/-- Modelled from the spec (§4.1): split-based divide-and-conquer `union`; the
pivot is the root of the first (`self`) operand, so on a key present in both the
first operand's value is kept. -/
def union [LinearOrder α] : Map α β → Map α β → Map α β
  | tip, t₂ => t₂
  | t₁, tip => t₁
  | node _ l₁ k v r₁, node s₂ l₂ k₂ v₂ r₂ =>
    let s := split k (node s₂ l₂ k₂ v₂ r₂)
    link (union l₁ s.1) k v (union r₁ s.2)

/-- Modelled from the spec (§4.1): split-based `intersection`; a pivot survives
only if present in both trees, with the value taken from `self`. -/
def intersection [LinearOrder α] : Map α β → Map α β → Map α β
  | tip, _ => tip
  | node _ _ _ _ _, tip => tip
  | node _ l₁ k v r₁, node s₂ l₂ k₂ v₂ r₂ =>
    let s := splitLookup k (node s₂ l₂ k₂ v₂ r₂)
    let i₁ := intersection l₁ s.1
    let i₂ := intersection r₁ s.2.2
    if s.2.1.isSome then link i₁ k v i₂ else merge i₁ i₂

/-- Modelled from the spec (§4.1): `difference`, the entries of `self` whose key
does not appear in `other`, via the same split and rejoin shape. -/
def difference [LinearOrder α] : Map α β → Map α β → Map α β
  | t₁, tip => t₁
  | tip, node _ _ _ _ _ => tip
  | node s₁ l₁ k v r₁, node _ l₂ k₂ _ r₂ =>
    let s := split k₂ (node s₁ l₁ k v r₁)
    merge (difference s.1 l₂) (difference s.2 r₂)

/-- Modelled from the spec (§4.1): `take(Tree, n)` for `n < size`, descending by
the cached size fields. -/
def takeAux : ℕ → Map α β → Map α β
  | _, tip => tip
  | n, node _ l k v r =>
    if n ≤ size l then takeAux n l else link l k v (takeAux (n - size l - 1) r)

/-- Modelled from the spec (§4.1): `take(Tree, n)`, the first `n` entries in
ascending key order. -/
def take (n : ℕ) (t : Map α β) : Map α β :=
  if size t ≤ n then t else takeAux n t

/-- Modelled from the spec (§4.1): `drop(Tree, n)` for `n < size`, descending by
the cached size fields. -/
def dropAux : ℕ → Map α β → Map α β
  | _, tip => tip
  | n, node _ l k v r =>
    if n ≤ size l then link (dropAux n l) k v r else dropAux (n - size l - 1) r

/-- Modelled from the spec (§4.1): `drop(Tree, n)`, all but the first `n`
entries in ascending key order. -/
def drop (n : ℕ) (t : Map α β) : Map α β :=
  if size t ≤ n then tip else dropAux n t

/-- Modelled from the spec (§4.1): the iterator produces the ascending in-order
sequence of key/value pairs of the tree. -/
def toList : Map α β → List (α × β)
  | tip => []
  | node _ l k v r => toList l ++ (k, v) :: toList r

/-- All keys of the tree satisfy the (decidable) predicate. -/
def allKeys (p : α → Bool) : Map α β → Bool
  | tip => true
  | node _ l k _ r => p k && allKeys p l && allKeys p r

/-- Modelled from the spec (§4.1): `valid(&Tree)`; recursively re-derives, for
every node, that BST ordering holds, that the cached size matches the recomputed
sum, and that the weight-balance ratio is within the fixed constant. -/
def valid [LinearOrder α] : Map α β → Bool
  | tip => true
  | node sz l k _ r =>
    allKeys (fun a => decide (a < k)) l && allKeys (fun a => decide (k < a)) r &&
      decide (sz = size l + size r + 1) &&
      (decide (size l + size r ≤ 1) ||
        (decide (size l ≤ delta * size r) && decide (size r ≤ delta * size l))) &&
      valid l && valid r

end Map

end Im

namespace Im

/-- `pub struct Set<A>(Map<A, ()>)` from `src/set.rs`. -/
structure Set (α : Type u) : Type u where
  toMap : Map α Unit

namespace Set

variable {α : Type u}

/-- `Set::empty` (`set.rs`): `Set(Map::empty())`; also the expansion of the
empty `set![]` macro and of `Default::default`. -/
def empty : Set α := ⟨Map.empty⟩

/-- `Set::singleton` (`set.rs`): `Set(Map::singleton(a, ()))`. -/
def singleton (a : α) : Set α := ⟨Map.singleton a ()⟩

/-- `Set::iter` (`set.rs`): the set iterator wraps the map iterator and maps
each pair `(a, _)` to `a`; its output sequence is modelled as a list. -/
def iter (s : Set α) : List α := (Map.toList s.toMap).map Prod.fst

/-- `Set::size` (`set.rs`): `self.0.size()`. -/
def size (s : Set α) : ℕ := Map.size s.toMap

/-- `Set::valid` (`set.rs`): `self.0.valid()`. -/
def valid [LinearOrder α] (s : Set α) : Bool := Map.valid s.toMap

/-- `Set::insert` (`set.rs`): `Set(self.0.insert(a, ()))`. -/
def insert [LinearOrder α] (s : Set α) (a : α) : Set α := ⟨Map.insert a () s.toMap⟩

/-- `Set::contains` (`set.rs`): `self.0.contains_key(a)`. -/
def contains [LinearOrder α] (s : Set α) (a : α) : Bool := Map.containsKey a s.toMap

/-- `Set::delete` (`set.rs`): `Set(self.0.delete(a))`. -/
def delete [LinearOrder α] (s : Set α) (a : α) : Set α := ⟨Map.delete a s.toMap⟩

/-- `Set::union` (`set.rs`): `Set(self.0.union(&other.0))`. -/
def union [LinearOrder α] (s other : Set α) : Set α := ⟨Map.union s.toMap other.toMap⟩

/-- `Set::unions` (`set.rs`): `i.into_iter().fold(set![], |a, b| a.union(&b))`;
the iterator argument is modelled as a list. -/
def unions [LinearOrder α] (l : List (Set α)) : Set α :=
  l.foldl (fun a b => a.union b) empty

/-- `Set::difference` (`set.rs`): `Set(self.0.difference(&other.0))`. -/
def difference [LinearOrder α] (s other : Set α) : Set α :=
  ⟨Map.difference s.toMap other.toMap⟩

/-- `Set::intersection` (`set.rs`): `Set(self.0.intersection(&other.0))`. -/
def intersection [LinearOrder α] (s other : Set α) : Set α :=
  ⟨Map.intersection s.toMap other.toMap⟩

/-- `Set::split` (`set.rs`): `let (l, r) = self.0.split(split); (Set(l), Set(r))`. -/
def split [LinearOrder α] (s : Set α) (a : α) : Set α × Set α :=
  let p := Map.split a s.toMap
  (⟨p.1⟩, ⟨p.2⟩)

/-- `Set::split_member` (`set.rs`): `let (l, m, r) = self.0.split_lookup(split);
(Set(l), m.is_some(), Set(r))`. -/
def split_member [LinearOrder α] (s : Set α) (a : α) : Set α × Bool × Set α :=
  let p := Map.splitLookup a s.toMap
  (⟨p.1⟩, p.2.1.isSome, ⟨p.2.2⟩)

/-- `Set::take` (`set.rs`): `Set(self.0.take(n))`. -/
def take (s : Set α) (n : ℕ) : Set α := ⟨Map.take n s.toMap⟩

/-- `Set::drop` (`set.rs`): `Set(self.0.drop(n))`. -/
def drop (s : Set α) (n : ℕ) : Set α := ⟨Map.drop n s.toMap⟩

/-- `Set::pop_min` (`set.rs`): `let (pair, set) = self.0.pop_min_with_key();
(pair.map(|(a, _)| a), Set(set))`. -/
def pop_min (s : Set α) : Option α × Set α :=
  let p := Map.popMinWithKey s.toMap
  (p.1.map Prod.fst, ⟨p.2⟩)

/-- `impl FromIterator<A> for Set<A>` (`set.rs`):
`i.into_iter().fold(set![], |s, a| s.insert(a))`; the iterator argument is
modelled as a list. -/
def fromList [LinearOrder α] (xs : List α) : Set α :=
  xs.foldl (fun s a => s.insert a) empty

/-- `impl PartialEq for Set` delegates to the map's equality (`set.rs`), which
is modelled from the spec (§4.2, §6): equality of the ascending entry
sequences of the two trees. -/
def beq [DecidableEq α] (s₁ s₂ : Set α) : Bool :=
  decide (Map.toList s₁.toMap = Map.toList s₂.toMap)

/-- Lexicographic three-way comparison of two lists. -/
def listCmp [LinearOrder α] : List α → List α → Ordering
  | [], [] => Ordering.eq
  | [], _ :: _ => Ordering.lt
  | _ :: _, [] => Ordering.gt
  | a :: l, b :: m =>
    match compare a b with
    | Ordering.eq => listCmp l m
    | o => o

/-- `impl Ord for Set` delegates to the map's comparison (`set.rs`), which is
modelled from the spec (§4.2, §6): lexicographic ordering of the ascending key
sequences. -/
def cmp [LinearOrder α] (s₁ s₂ : Set α) : Ordering :=
  listCmp (iter s₁) (iter s₂)

/-- The element loop of `impl Debug for Set` (`set.rs`): each element is
written, followed by `" \x7d"` when the peek shows it is the last element and
by `", "` otherwise; an empty iterator writes nothing. -/
def fmtElems (fm : α → String) : List α → String
  | [] => ""
  | [a] => fm a ++ " \x7d"
  | a :: b :: rest => fm a ++ ", " ++ fmtElems fm (b :: rest)

/-- `impl Debug for Set` (`set.rs`): writes `"\x7b "` and then runs the element
loop over the iterator (ascending) order; `fm` models the `Debug` instance of
the element type. -/
def fmtDebug (fm : α → String) (s : Set α) : String :=
  "\x7b " ++ fmtElems fm (iter s)

end Set

end Im

namespace Im

namespace Map

variable {α : Type u} {β : Type v}

/-- Projection of the model onto Mathlib's `Ordnode`, forgetting the values. -/
def strip : Map α β → Ordnode α
  | tip => Ordnode.nil
  | node sz l k _ r => Ordnode.node sz (strip l) k (strip r)

@[simp] theorem strip_tip : strip (tip : Map α β) = Ordnode.nil := rfl

@[simp] theorem strip_node {sz : ℕ} {l : Map α β} {k v r} :
    strip (node sz l k v r) = Ordnode.node sz (strip l) k (strip r) := rfl

@[simp] theorem size_strip : ∀ t : Map α β, (strip t).size = size t
  | tip => rfl
  | node _ _ _ _ _ => rfl

@[simp] theorem toList_strip : ∀ t : Map α β,
    (strip t).toList = (toList t).map Prod.fst
  | tip => rfl
  | node sz l k v r => by
    rw [strip_node, Ordnode.toList_node, toList, toList_strip l, toList_strip r]
    simp

theorem strip_balanceL : ∀ (l : Map α β) (k : α) (v : β) (r : Map α β),
    strip (balanceL l k v r) = Ordnode.balanceL (strip l) k (strip r) := by
  intro l k v r
  cases r with
  | tip =>
    cases l with
    | tip => rfl
    | node ls ll lk lv lr =>
      cases ll <;> cases lr <;>
        simp only [balanceL, Ordnode.balanceL, strip, size_strip, ratio, Ordnode.ratio,
          Ordnode.singleton, id] <;>
        split_ifs <;> simp [strip]
  | node rs rl rk rv rr =>
    cases l with
    | tip => rfl
    | node ls ll lk lv lr =>
      simp only [balanceL, Ordnode.balanceL, strip, size_strip, ratio, Ordnode.ratio,
        delta, Ordnode.delta, id]
      split_ifs with h₁
      · cases ll <;> cases lr <;>
          simp only [strip, size_strip, id] <;> split_ifs <;> simp [strip]
      · simp [strip]

theorem strip_balanceR : ∀ (l : Map α β) (k : α) (v : β) (r : Map α β),
    strip (balanceR l k v r) = Ordnode.balanceR (strip l) k (strip r) := by
  intro l k v r
  cases l with
  | tip =>
    cases r with
    | tip => rfl
    | node rs rl rk rv rr =>
      cases rl <;> cases rr <;>
        simp only [balanceR, Ordnode.balanceR, strip, size_strip, ratio, Ordnode.ratio,
          Ordnode.singleton, id] <;>
        split_ifs <;> simp [strip]
  | node ls ll lk lv lr =>
    cases r with
    | tip => rfl
    | node rs rl rk rv rr =>
      simp only [balanceR, Ordnode.balanceR, strip, size_strip, ratio, Ordnode.ratio,
        delta, Ordnode.delta, id]
      split_ifs with h₁
      · cases rl <;> cases rr <;>
          simp only [strip, size_strip, id] <;> split_ifs <;> simp [strip]
      · simp [strip]

theorem strip_insert [LinearOrder α] (k : α) (v : β) : ∀ t : Map α β,
    strip (insert k v t) = Ordnode.insert k (strip t)
  | tip => rfl
  | node sz l k' v' r => by
    simp only [insert, Ordnode.insert, strip_node, Ordnode.cmpLE_eq_compare]
    cases hc : compare k k' <;>
      simp [hc, strip_balanceL, strip_balanceR, strip_insert k v]

theorem strip_containsKey [LinearOrder α] (k : α) : ∀ t : Map α β,
    containsKey k t = Ordnode.jmem k (strip t)
  | tip => rfl
  | node sz l k' v' r => by
    simp only [containsKey, Ordnode.jmem, strip_node]
    cases hc : compare k k' <;> simp [hc, strip_containsKey k]

theorem strip_splitMinAux : ∀ (l : Map α β) (k : α) (v : β) (r : Map α β),
    Ordnode.splitMin' (strip l) k (strip r) =
      ((splitMinAux l k v r).1.1, strip (splitMinAux l k v r).2)
  | tip, k, v, r => rfl
  | node sz ll lk lv lr, k, v, r => by
    simp only [splitMinAux, Ordnode.splitMin', strip_node]
    rw [strip_splitMinAux ll lk lv lr, strip_balanceR]

theorem strip_splitMaxAux : ∀ (l : Map α β) (k : α) (v : β) (r : Map α β),
    Ordnode.splitMax' (strip l) k (strip r) =
      (strip (splitMaxAux l k v r).1, (splitMaxAux l k v r).2.1)
  | l, k, v, tip => rfl
  | l, k, v, node sz rl rk rv rr => by
    simp only [splitMaxAux, Ordnode.splitMax', strip_node]
    rw [strip_splitMaxAux rl rk rv rr, strip_balanceL]

theorem strip_glue : ∀ (l r : Map α β), strip (glue l r) = Ordnode.glue (strip l) (strip r)
  | tip, r => by cases r <;> rfl
  | node ls ll lk lv lr, tip => rfl
  | node ls ll lk lv lr, node rs rl rk rv rr => by
    simp only [glue, Ordnode.glue, strip_node, size_strip]
    split_ifs with h
    · rw [strip_balanceR, strip_splitMaxAux ll lk lv lr]
      simp
    · rw [strip_balanceL, strip_splitMinAux rl rk rv rr]
      simp

end Map

end Im

namespace Im

namespace Map

variable {α : Type u} {β : Type v}

theorem strip_delete [LinearOrder α] (k : α) : ∀ t : Map α β,
    strip (delete k t) = Ordnode.erase k (strip t)
  | tip => rfl
  | node sz l k' v' r => by
    simp only [delete, Ordnode.erase, strip_node, Ordnode.cmpLE_eq_compare]
    cases hc : compare k k' <;>
      simp [hc, strip_balanceL, strip_balanceR, strip_glue, strip_delete k]

theorem strip_popMinWithKey : ∀ t : Map α β,
    Ordnode.jpopMin (strip t) = ((popMinWithKey t).1.map Prod.fst, strip (popMinWithKey t).2)
  | tip => rfl
  | node sz l k v r => by
    simp only [popMinWithKey, Ordnode.jpopMin, strip_node]
    rw [strip_splitMinAux l k v r]
    simp

theorem strip_insertMin (k : α) (v : β) : ∀ t : Map α β,
    strip (insertMin k v t) = Ordnode.jinsertMin k (strip t)
  | tip => rfl
  | node sz l k' v' r => by
    simp only [insertMin, Ordnode.jinsertMin, strip_node]
    rw [strip_balanceL, strip_insertMin k v l]

theorem strip_insertMax (k : α) (v : β) : ∀ t : Map α β,
    strip (insertMax t k v) = Ordnode.jinsertMax (strip t) k
  | tip => rfl
  | node sz l k' v' r => by
    simp only [insertMax, Ordnode.jinsertMax, strip_node]
    rw [strip_balanceR, strip_insertMax k v r]

theorem link_tip_left {k : α} {v : β} {r : Map α β} : link tip k v r = insertMin k v r := by
  rw [link]

theorem link_node_tip {ls : ℕ} {ll : Map α β} {lk lv lr k v} :
    link (node ls ll lk lv lr) k v tip = insertMax (node ls ll lk lv lr) k v := by
  rw [link]

theorem link_node_node {ls : ℕ} {ll : Map α β} {lk lv lr k v rs rl rk rv rr} :
    link (node ls ll lk lv lr) k v (node rs rl rk rv rr) =
      if delta * ls < rs then balanceL (link (node ls ll lk lv lr) k v rl) rk rv rr
      else if delta * rs < ls then balanceR ll lk lv (link lr k v (node rs rl rk rv rr))
      else node (ls + rs + 1) (node ls ll lk lv lr) k v (node rs rl rk rv rr) := by
  rw [link]

theorem strip_link : ∀ (l : Map α β) (k : α) (v : β) (r : Map α β),
    strip (link l k v r) = Ordnode.jlink (strip l) k (strip r)
  | tip, k, v, r => by
    rw [link_tip_left, strip_tip, Ordnode.jlink_nil_left, strip_insertMin]
  | node ls ll lk lv lr, k, v, tip => by
    rw [link_node_tip, strip_tip, strip_node, Ordnode.jlink_node_nil, ← strip_node,
      strip_insertMax]
  | node ls ll lk lv lr, k, v, node rs rl rk rv rr => by
    rw [link_node_node, strip_node, strip_node, Ordnode.jlink_node_node]
    show strip (if Map.delta * ls < rs then _ else _) = _
    rw [show Map.delta = Ordnode.delta from rfl]
    split_ifs with h₁ h₂
    · rw [strip_balanceL, strip_link (node ls ll lk lv lr) k v rl, strip_node]
    · rw [strip_balanceR, strip_link lr k v (node rs rl rk rv rr), strip_node]
    · simp [Ordnode.node']
  termination_by l _ _ r => realSize l + realSize r
  decreasing_by
  · simp only [realSize]; omega
  · simp only [realSize]; omega

theorem merge_tip_left {r : Map α β} : merge tip r = r := by
  rw [merge]

theorem merge_node_tip {ls : ℕ} {ll : Map α β} {lk lv lr} :
    merge (node ls ll lk lv lr) tip = node ls ll lk lv lr := by
  rw [merge]

theorem merge_node_node {ls : ℕ} {ll : Map α β} {lk lv lr rs rl rk rv rr} :
    merge (node ls ll lk lv lr) (node rs rl rk rv rr) =
      if delta * ls < rs then balanceL (merge (node ls ll lk lv lr) rl) rk rv rr
      else if delta * rs < ls then balanceR ll lk lv (merge lr (node rs rl rk rv rr))
      else glue (node ls ll lk lv lr) (node rs rl rk rv rr) := by
  rw [merge]

theorem strip_merge : ∀ (l r : Map α β),
    strip (merge l r) = Ordnode.merge (strip l) (strip r)
  | tip, r => by rw [merge_tip_left, strip_tip, Ordnode.merge_nil_right]
  | node ls ll lk lv lr, tip => by
    rw [merge_node_tip, strip_tip, Ordnode.merge_nil_left]
  | node ls ll lk lv lr, node rs rl rk rv rr => by
    rw [merge_node_node, strip_node, strip_node, Ordnode.merge_node]
    show strip (if Map.delta * ls < rs then _ else _) = _
    rw [show Map.delta = Ordnode.delta from rfl]
    split_ifs with h₁ h₂
    · rw [strip_balanceL, strip_merge (node ls ll lk lv lr) rl, strip_node]
    · rw [strip_balanceR, strip_merge lr (node rs rl rk rv rr), strip_node]
    · rw [strip_glue, strip_node, strip_node]
  termination_by l r => realSize l + realSize r
  decreasing_by
  · simp only [realSize]; omega
  · simp only [realSize]; omega

theorem strip_split [LinearOrder α] (k : α) : ∀ t : Map α β,
    Ordnode.jsplit k (strip t) = (strip (split k t).1, strip (split k t).2)
  | tip => rfl
  | node sz l k' v' r => by
    simp only [split, Ordnode.jsplit, strip_node]
    cases hc : compare k k' <;>
      simp [hc, strip_link, strip_split k]

theorem strip_splitLookup [LinearOrder α] (k : α) : ∀ t : Map α β,
    Ordnode.jsplit3 k (strip t) = (strip (splitLookup k t).1,
      ((splitLookup k t).2.1).map (fun _ => k), strip (splitLookup k t).2.2)
  | tip => rfl
  | node sz l k' v' r => by
    simp only [splitLookup, Ordnode.jsplit3, strip_node]
    cases hc : compare k k' with
    | lt => simp [hc, strip_link, strip_splitLookup k]
    | eq =>
      have : k = k' := compare_eq_iff_eq.1 hc
      subst this
      simp [hc]
    | gt => simp [hc, strip_link, strip_splitLookup k]

theorem strip_union [LinearOrder α] : ∀ t₁ t₂ : Map α β,
    strip (union t₁ t₂) = Ordnode.junion (strip t₁) (strip t₂)
  | tip, t₂ => by cases t₂ <;> rfl
  | node s₁ l₁ k v r₁, tip => rfl
  | node s₁ l₁ k v r₁, node s₂ l₂ k₂ v₂ r₂ => by
    have e := strip_split (β := β) k (node s₂ l₂ k₂ v₂ r₂)
    simp only [strip_node] at e
    simp only [union, Ordnode.junion, strip_node, e, strip_link,
      strip_union l₁ (split k (node s₂ l₂ k₂ v₂ r₂)).1,
      strip_union r₁ (split k (node s₂ l₂ k₂ v₂ r₂)).2]

theorem strip_intersection [LinearOrder α] : ∀ t₁ t₂ : Map α β,
    strip (intersection t₁ t₂) = Ordnode.jinter (strip t₁) (strip t₂)
  | tip, t₂ => by cases t₂ <;> rfl
  | node s₁ l₁ k v r₁, tip => rfl
  | node s₁ l₁ k v r₁, node s₂ l₂ k₂ v₂ r₂ => by
    have e := strip_splitLookup (β := β) k (node s₂ l₂ k₂ v₂ r₂)
    simp only [strip_node] at e
    have hs : ∀ o : Option β, (Option.map (fun _ => k) o).isSome = o.isSome := by
      intro o; cases o <;> rfl
    simp only [intersection, Ordnode.jinter, strip_node, e, hs]
    split_ifs with h
    · rw [strip_link,
        strip_intersection l₁ (splitLookup k (node s₂ l₂ k₂ v₂ r₂)).1,
        strip_intersection r₁ (splitLookup k (node s₂ l₂ k₂ v₂ r₂)).2.2]
    · rw [strip_merge,
        strip_intersection l₁ (splitLookup k (node s₂ l₂ k₂ v₂ r₂)).1,
        strip_intersection r₁ (splitLookup k (node s₂ l₂ k₂ v₂ r₂)).2.2]

theorem strip_difference [LinearOrder α] : ∀ t₁ t₂ : Map α β,
    strip (difference t₁ t₂) = Ordnode.jdiff (strip t₁) (strip t₂)
  | t₁, tip => by cases t₁ <;> rfl
  | tip, node s₂ l₂ k₂ v₂ r₂ => rfl
  | node s₁ l₁ k v r₁, node s₂ l₂ k₂ v₂ r₂ => by
    have e := strip_split (β := β) k₂ (node s₁ l₁ k v r₁)
    simp only [strip_node] at e
    simp only [difference, Ordnode.jdiff, strip_node, e, strip_merge,
      strip_difference (split k₂ (node s₁ l₁ k v r₁)).1 l₂,
      strip_difference (split k₂ (node s₁ l₁ k v r₁)).2 r₂]

theorem strip_takeAux : ∀ (n : ℕ) (t : Map α β),
    strip (takeAux n t) = Ordnode.jtakeAux n (strip t)
  | _, tip => rfl
  | n, node sz l k v r => by
    simp only [takeAux, Ordnode.jtakeAux, strip_node, size_strip]
    split_ifs with h
    · exact strip_takeAux n l
    · rw [strip_link, strip_takeAux _ r]

theorem strip_take (n : ℕ) (t : Map α β) :
    strip (take n t) = Ordnode.jtake n (strip t) := by
  rw [take, Ordnode.jtake, size_strip]
  split_ifs with h
  · rfl
  · exact strip_takeAux n t

theorem strip_dropAux : ∀ (n : ℕ) (t : Map α β),
    strip (dropAux n t) = Ordnode.jdropAux n (strip t)
  | _, tip => rfl
  | n, node sz l k v r => by
    simp only [dropAux, Ordnode.jdropAux, strip_node, size_strip]
    split_ifs with h
    · rw [strip_link, strip_dropAux n l]
    · exact strip_dropAux _ r

theorem strip_drop (n : ℕ) (t : Map α β) :
    strip (drop n t) = Ordnode.jdrop n (strip t) := by
  rw [drop, Ordnode.jdrop, size_strip]
  split_ifs with h
  · rfl
  · exact strip_dropAux n t

end Map

end Im

namespace Im

namespace Map

variable {α : Type u} {β : Type v}

/-- `allKeys p` holds exactly when every key of the stripped tree satisfies `p`. -/
theorem allKeys_iff {p : α → Bool} : ∀ t : Map α β,
    allKeys p t = true ↔ Ordnode.All (fun a => p a = true) (strip t)
  | tip => by simp [allKeys, Ordnode.All]
  | node sz l k v r => by
    simp only [allKeys, strip_node, Ordnode.All, Bool.and_eq_true,
      allKeys_iff l, allKeys_iff r]
    tauto

/-- The Boolean validity check on the modelled `Map` agrees with Mathlib's
`Ordnode.Valid` on the stripped key tree. -/
theorem valid_iff [LinearOrder α] : ∀ t : Map α β, valid t = true ↔ (strip t).Valid
  | tip => iff_of_true rfl Ordnode.valid_nil
  | node sz l k v r => by
    have IHl := valid_iff l
    have IHr := valid_iff r
    simp only [valid, Bool.and_eq_true, Bool.or_eq_true, decide_eq_true_eq,
      allKeys_iff, strip_node, IHl, IHr]
    constructor
    · rintro ⟨⟨⟨⟨⟨hal, har⟩, hsz⟩, hbal⟩, hvl⟩, hvr⟩
      refine Ordnode.Valid'.node ⟨hvl.1.of_lt ⟨⟩ hal, hvl.2, hvl.3⟩
        ⟨hvr.1.of_gt ⟨⟩ har, hvr.2, hvr.3⟩ ?_ ?_
      · rw [size_strip, size_strip]; exact hbal
      · rw [size_strip, size_strip]; exact hsz
    · rintro ⟨⟨bl, br⟩, ⟨hsz, sl, sr⟩, ⟨hb, qbl, qbr⟩⟩
      rw [size_strip, size_strip] at hsz hb
      exact ⟨⟨⟨⟨⟨bl.mem_lt, br.mem_gt⟩, hsz⟩, hb⟩, ⟨bl.weak_right, sl, qbl⟩⟩,
        ⟨br.weak_left, sr, qbr⟩⟩

end Map

end Im

namespace Im

namespace Map

variable {α : Type u} {β : Type v}

/-- First component of `split`, stripped, as a `jsplit3` component. -/
theorem strip_split_fst [LinearOrder α] (a : α) (t : Map α β) :
    strip (split a t).1 = (Ordnode.jsplit3 a (strip t)).1 := by
  have e := strip_split (β := β) a t
  rw [Ordnode.jsplit_eq] at e
  simp only [Prod.mk.injEq] at e
  exact e.1.symm

/-- Second component of `split`, stripped, as a `jsplit3` component. -/
theorem strip_split_snd [LinearOrder α] (a : α) (t : Map α β) :
    strip (split a t).2 = (Ordnode.jsplit3 a (strip t)).2.2 := by
  have e := strip_split (β := β) a t
  rw [Ordnode.jsplit_eq] at e
  simp only [Prod.mk.injEq] at e
  exact e.2.symm

end Map

namespace Set

variable {α : Type u}

theorem iter_eq_toList (s : Set α) : s.iter = (Map.strip s.toMap).toList :=
  (Map.toList_strip s.toMap).symm

theorem size_eq_strip (s : Set α) : s.size = (Map.strip s.toMap).size :=
  (Map.size_strip s.toMap).symm

theorem valid_strip [LinearOrder α] {s : Set α} (h : s.valid = true) :
    (Map.strip s.toMap).Valid :=
  (Map.valid_iff s.toMap).1 h

theorem valid_of_strip [LinearOrder α] {s : Set α} (h : (Map.strip s.toMap).Valid) :
    s.valid = true :=
  (Map.valid_iff s.toMap).2 h

theorem valid_empty [LinearOrder α] : (empty : Set α).valid = true := rfl

theorem valid_insert [LinearOrder α] {s : Set α} (h : s.valid = true) (a : α) :
    (s.insert a).valid = true :=
  valid_of_strip (by
    show (Map.strip (Map.insert a () s.toMap)).Valid
    rw [Map.strip_insert]
    exact Ordnode.insert.valid a (valid_strip h))

theorem valid_delete [LinearOrder α] {s : Set α} (h : s.valid = true) (a : α) :
    (s.delete a).valid = true :=
  valid_of_strip (by
    show (Map.strip (Map.delete a s.toMap)).Valid
    rw [Map.strip_delete]
    exact Ordnode.erase.valid a (valid_strip h))

theorem valid_union [LinearOrder α] {s t : Set α} (hs : s.valid = true)
    (ht : t.valid = true) : (s.union t).valid = true :=
  valid_of_strip (by
    show (Map.strip (Map.union s.toMap t.toMap)).Valid
    rw [Map.strip_union]
    exact Ordnode.valid'_junion (valid_strip hs) (valid_strip ht))

theorem valid_intersection [LinearOrder α] {s t : Set α} (hs : s.valid = true)
    (ht : t.valid = true) : (s.intersection t).valid = true :=
  valid_of_strip (by
    show (Map.strip (Map.intersection s.toMap t.toMap)).Valid
    rw [Map.strip_intersection]
    exact Ordnode.valid'_jinter (valid_strip hs) (valid_strip ht))

theorem valid_difference [LinearOrder α] {s t : Set α} (hs : s.valid = true)
    (ht : t.valid = true) : (s.difference t).valid = true :=
  valid_of_strip (by
    show (Map.strip (Map.difference s.toMap t.toMap)).Valid
    rw [Map.strip_difference]
    exact Ordnode.valid'_jdiff (valid_strip hs) (valid_strip ht))

theorem valid_split_left [LinearOrder α] {s : Set α} (h : s.valid = true) (a : α) :
    (s.split a).1.valid = true :=
  valid_of_strip (by
    show (Map.strip (Map.split a s.toMap).1).Valid
    rw [Map.strip_split_fst]
    have v := (Ordnode.valid'_jsplit3 (x := a) (valid_strip h) ⟨⟩ ⟨⟩).1
    exact ⟨v.1.weak_right, v.2, v.3⟩)

theorem valid_split_right [LinearOrder α] {s : Set α} (h : s.valid = true) (a : α) :
    (s.split a).2.valid = true :=
  valid_of_strip (by
    show (Map.strip (Map.split a s.toMap).2).Valid
    rw [Map.strip_split_snd]
    have v := (Ordnode.valid'_jsplit3 (x := a) (valid_strip h) ⟨⟩ ⟨⟩).2.1
    exact ⟨v.1.weak_left, v.2, v.3⟩)

theorem valid_take [LinearOrder α] {s : Set α} (h : s.valid = true) (n : ℕ) :
    (s.take n).valid = true :=
  valid_of_strip (by
    show (Map.strip (Map.take n s.toMap)).Valid
    rw [Map.strip_take]
    exact Ordnode.valid'_jtake n (valid_strip h))

theorem valid_drop [LinearOrder α] {s : Set α} (h : s.valid = true) (n : ℕ) :
    (s.drop n).valid = true :=
  valid_of_strip (by
    show (Map.strip (Map.drop n s.toMap)).Valid
    rw [Map.strip_drop]
    exact Ordnode.valid'_jdrop n (valid_strip h))

/-- The sets reachable from the empty set by a finite sequence of the
operations named in the invariant-preservation property. -/
inductive Reachable [LinearOrder α] : Set α → Prop
  | empty : Reachable Set.empty
  | insert {s : Set α} (a : α) : Reachable s → Reachable (s.insert a)
  | delete {s : Set α} (a : α) : Reachable s → Reachable (s.delete a)
  | union {s t : Set α} : Reachable s → Reachable t → Reachable (s.union t)
  | intersection {s t : Set α} : Reachable s → Reachable t →
      Reachable (s.intersection t)
  | difference {s t : Set α} : Reachable s → Reachable t →
      Reachable (s.difference t)
  | splitLeft {s : Set α} (a : α) : Reachable s → Reachable (s.split a).1
  | splitRight {s : Set α} (a : α) : Reachable s → Reachable (s.split a).2
  | take {s : Set α} (n : ℕ) : Reachable s → Reachable (s.take n)
  | drop {s : Set α} (n : ℕ) : Reachable s → Reachable (s.drop n)

end Set

end Im

/-- C1: every set reachable from the empty set by a finite sequence of
`insert`, `delete`, `union`, `intersection`, `difference`, `split`, `take` and
`drop` operations passes the structural validity check `valid` (BST ordering,
cached sizes and weight balance all hold). -/
theorem c1_reachable_valid {α : Type u} [LinearOrder α] {s : Im.Set α}
    (h : Im.Set.Reachable s) : s.valid = true := by
  induction h with
  | empty => exact Im.Set.valid_empty
  | insert a _ ih => exact Im.Set.valid_insert ih a
  | delete a _ ih => exact Im.Set.valid_delete ih a
  | union _ _ ih₁ ih₂ => exact Im.Set.valid_union ih₁ ih₂
  | intersection _ _ ih₁ ih₂ => exact Im.Set.valid_intersection ih₁ ih₂
  | difference _ _ ih₁ ih₂ => exact Im.Set.valid_difference ih₁ ih₂
  | splitLeft a _ ih => exact Im.Set.valid_split_left ih a
  | splitRight a _ ih => exact Im.Set.valid_split_right ih a
  | take n _ ih => exact Im.Set.valid_take ih n
  | drop n _ ih => exact Im.Set.valid_drop ih n

/-- C1 witness: a concrete reachable set, checked valid through the theorem. -/
theorem c1_reachable_valid_witness :
    (((Im.Set.empty.insert 2).insert 1).delete 2 : Im.Set ℕ).valid = true :=
  c1_reachable_valid (.delete 2 (.insert 1 (.insert 2 .empty)))

namespace Im

namespace Set

variable {α : Type u}

theorem sorted_iter [LinearOrder α] {s : Set α} (h : s.valid = true) :
    s.iter.Sorted (· < ·) := by
  rw [iter_eq_toList]
  exact Ordnode.sorted_toList (valid_strip h).1

theorem mem_iter_insert [LinearOrder α] {s : Set α} (h : s.valid = true) (x a : α) :
    a ∈ (s.insert x).iter ↔ a = x ∨ a ∈ s.iter := by
  rw [iter_eq_toList, iter_eq_toList]
  show a ∈ (Map.strip (Map.insert x () s.toMap)).toList ↔ _
  rw [Map.strip_insert]
  exact Ordnode.mem_toList_insert (valid_strip h) ⟨⟩ ⟨⟩ a

theorem contains_iff_mem_iter [LinearOrder α] {s : Set α} (h : s.valid = true) (a : α) :
    s.contains a = true ↔ a ∈ s.iter := by
  rw [iter_eq_toList]
  show Map.containsKey a s.toMap = true ↔ _
  rw [Map.strip_containsKey]
  exact Ordnode.jmem_iff (valid_strip h).1

theorem fromList_aux [LinearOrder α] (xs : List α) : ∀ s : Set α, s.valid = true →
    (xs.foldl (fun t a => t.insert a) s).valid = true ∧
      ∀ a, a ∈ (xs.foldl (fun t a => t.insert a) s).iter ↔ a ∈ xs ∨ a ∈ s.iter := by
  induction xs with
  | nil => exact fun s hs => ⟨hs, fun a => by simp⟩
  | cons x xs ih =>
    intro s hs
    obtain ⟨hv, hm⟩ := ih (s.insert x) (valid_insert hs x)
    rw [List.foldl_cons]
    refine ⟨hv, fun a => ?_⟩
    rw [hm a, mem_iter_insert hs x a, List.mem_cons]
    tauto

end Set

end Im

/-- C3: collecting the iterator of the set built from a list `xs` by repeated
insertion yields exactly the sorted, duplicate-eliminated form of `xs`. -/
theorem c3_fromList_iter {α : Type u} [LinearOrder α] (xs : List α) :
    (Im.Set.fromList xs).iter = xs.toFinset.sort (· ≤ ·) := by
  obtain ⟨hv, hm⟩ := Im.Set.fromList_aux xs Im.Set.empty rfl
  refine Ordnode.sortedLt_eq (Im.Set.sorted_iter hv) (Finset.sort_sorted_lt _) fun a => ?_
  rw [show (Im.Set.fromList xs).iter = (xs.foldl (fun t a => t.insert a) Im.Set.empty).iter
      from rfl,
    hm a, Finset.mem_sort, List.mem_toFinset,
    show (Im.Set.empty : Im.Set α).iter = [] from rfl]
  simp

/-- C8: inserting `a` leaves the size unchanged when the set already contains
`a`, and grows it by exactly one otherwise. -/
theorem c8_size_insert {α : Type u} [LinearOrder α] (s : Im.Set α) (a : α)
    (h : s.valid = true) :
    (s.insert a).size = if s.contains a then s.size else s.size + 1 := by
  rw [Im.Set.size_eq_strip, Im.Set.size_eq_strip]
  show (Im.Map.strip (Im.Map.insert a () s.toMap)).size = _
  rw [Im.Map.strip_insert,
    Ordnode.size_insert (x := a) (Im.Set.valid_strip h) ⟨⟩ ⟨⟩]
  show _ = if Im.Map.containsKey a s.toMap = true then _ else _
  simp only [Im.Map.strip_containsKey]
  cases Ordnode.jmem a (Im.Map.strip s.toMap) <;> simp

/-- C8 witness: inserting a fresh element into a concrete one-element set grows
the size by one. -/
theorem c8_size_insert_witness :
    (Im.Set.empty.insert (1 : ℕ)).valid = true ∧
      ((Im.Set.empty.insert (1 : ℕ)).insert 2).size =
        (if (Im.Set.empty.insert (1 : ℕ)).contains 2 then (Im.Set.empty.insert (1 : ℕ)).size
         else (Im.Set.empty.insert (1 : ℕ)).size + 1) :=
  ⟨by decide, c8_size_insert (Im.Set.empty.insert 1) 2 (by decide)⟩

namespace Im

namespace Set

variable {α : Type u}

/-- Written from the spec sentence behind C2 ("comma-separated"): join a list
of rendered elements with `", "` separators. -/
def commaJoin : List String → String
  | [] => ""
  | [x] => x
  | x :: y :: rest => x ++ ", " ++ commaJoin (y :: rest)

/-- Written from the spec sentence behind C2: the comma-separated element list
enclosed in an opening and a matching closing brace. -/
def specRender (fm : α → String) (s : Set α) : String :=
  "\x7b " ++ commaJoin (s.iter.map fm) ++ " \x7d"

theorem fmtElems_eq_commaJoin (fm : α → String) :
    ∀ xs : List α, xs ≠ [] → fmtElems fm xs = commaJoin (xs.map fm) ++ " \x7d"
  | [], h => absurd rfl h
  | [a], _ => rfl
  | a :: b :: rest, _ => by
    rw [show fmtElems fm (a :: b :: rest) = fm a ++ ", " ++ fmtElems fm (b :: rest) from rfl,
      fmtElems_eq_commaJoin fm (b :: rest) (by simp),
      show (a :: b :: rest).map fm = fm a :: fm b :: rest.map fm from rfl,
      show commaJoin (fm a :: fm b :: rest.map fm) =
        fm a ++ ", " ++ commaJoin (fm b :: rest.map fm) from rfl]
    simp [String.append_assoc]

end Set

end Im

/-- C2 counterexample: the Debug rendering of the empty set is just the opening
brace and a space; it contains no closing brace at all, so the output of the
formatter is not enclosed in a matching pair of braces. -/
theorem c2_debug_counterexample :
    Im.Set.fmtDebug (fun n : ℕ => toString n) Im.Set.empty = "\x7b " ∧
      (Im.Set.fmtDebug (fun n : ℕ => toString n) Im.Set.empty).data.count '\x7d' = 0 := by
  constructor
  · rfl
  · decide

/-- C2 (amended): the Debug rendering lists the elements in ascending order;
when the set is nonempty the rendering is the comma-separated element list
enclosed in braces, but when the set is empty the rendering is the opening
brace and a space only, with no closing brace. -/
theorem c2_debug_amended {α : Type u} [LinearOrder α] (fm : α → String) (s : Im.Set α)
    (hv : s.valid = true) :
    s.iter.Sorted (· < ·) ∧
      (s.iter ≠ [] → Im.Set.fmtDebug fm s = Im.Set.specRender fm s) ∧
      (s.iter = [] → Im.Set.fmtDebug fm s = "\x7b ") := by
  refine ⟨Im.Set.sorted_iter hv, fun h => ?_, fun h => ?_⟩
  · rw [Im.Set.fmtDebug, Im.Set.specRender, Im.Set.fmtElems_eq_commaJoin fm _ h]
    simp [String.append_assoc]
  · rw [Im.Set.fmtDebug, h]
    rfl

/-- C2 witness: the amended statement applied to a concrete nonempty set. -/
theorem c2_debug_amended_witness :
    (Im.Set.empty.insert (1 : ℕ)).iter.Sorted (· < ·) ∧
      ((Im.Set.empty.insert (1 : ℕ)).iter ≠ [] →
        Im.Set.fmtDebug (fun n : ℕ => toString n) (Im.Set.empty.insert 1) =
          Im.Set.specRender (fun n : ℕ => toString n) (Im.Set.empty.insert 1)) ∧
      ((Im.Set.empty.insert (1 : ℕ)).iter = [] →
        Im.Set.fmtDebug (fun n : ℕ => toString n) (Im.Set.empty.insert 1) = "\x7b ") :=
  c2_debug_amended (fun n : ℕ => toString n) (Im.Set.empty.insert 1) (by decide)

namespace Im

namespace Set

variable {α : Type u}

theorem pairsEq_of_fstEq : ∀ {l₁ l₂ : List (α × Unit)},
    l₁.map Prod.fst = l₂.map Prod.fst → l₁ = l₂
  | [], [], _ => rfl
  | [], (_, _) :: _, h => by simp at h
  | (_, _) :: _, [], h => by simp at h
  | (a, u) :: l₁, (b, w) :: l₂, h => by
    simp only [List.map_cons, List.cons.injEq] at h
    obtain ⟨h1, h2⟩ := h
    rw [h1, pairsEq_of_fstEq h2]

theorem listCmp_eq_iff [LinearOrder α] : ∀ l m : List α,
    listCmp l m = Ordering.eq ↔ l = m
  | [], [] => by simp [listCmp]
  | [], _ :: _ => by simp [listCmp]
  | _ :: _, [] => by simp [listCmp]
  | a :: l, b :: m => by
    rw [listCmp]
    cases hc : compare a b with
    | lt =>
      have hab : a ≠ b := ne_of_lt (compare_lt_iff_lt.1 hc)
      simp [hab]
    | eq =>
      have hab : a = b := compare_eq_iff_eq.1 hc
      subst hab
      simp [listCmp_eq_iff l m]
    | gt =>
      have hab : a ≠ b := ne_of_gt (compare_gt_iff_gt.1 hc)
      simp [hab]

end Set

end Im

/-- C5: two sets are equal exactly when their ascending element sequences are
equal, and `cmp` is the lexicographic comparison of the ascending element
sequences (so in particular `cmp` returns `eq` exactly on equal sequences). -/
theorem c5_eq_and_cmp {α : Type u} [LinearOrder α] (s₁ s₂ : Im.Set α) :
    (Im.Set.beq s₁ s₂ = true ↔ s₁.iter = s₂.iter) ∧
      Im.Set.cmp s₁ s₂ = Im.Set.listCmp s₁.iter s₂.iter ∧
      (Im.Set.cmp s₁ s₂ = Ordering.eq ↔ s₁.iter = s₂.iter) := by
  refine ⟨?_, rfl, Im.Set.listCmp_eq_iff _ _⟩
  rw [Im.Set.beq, decide_eq_true_eq]
  constructor
  · intro h
    rw [Im.Set.iter, Im.Set.iter, h]
  · exact Im.Set.pairsEq_of_fstEq

namespace Ordnode

variable {α : Type*} [LinearOrder α]

theorem size_junion_add_size_jinter {t₁ t₂ : Ordnode α} (h₁ : Valid t₁) (h₂ : Valid t₂) :
    size (junion t₁ t₂) + size (jinter t₁ t₂) = size t₁ + size t₂ := by
  have vu := valid'_junion h₁ h₂
  have vi := valid'_jinter h₁ h₂
  have eu : (toList (junion t₁ t₂)).toFinset =
      (toList t₁).toFinset ∪ (toList t₂).toFinset := by
    ext a
    simp only [List.mem_toFinset, Finset.mem_union]
    exact mem_toList_junion h₁ h₂ a
  have ei : (toList (jinter t₁ t₂)).toFinset =
      (toList t₁).toFinset ∩ (toList t₂).toFinset := by
    ext a
    simp only [List.mem_toFinset, Finset.mem_inter]
    exact mem_toList_jinter h₁ h₂ a
  have key := Finset.card_union_add_card_inter (toList t₁).toFinset (toList t₂).toFinset
  rw [← eu, ← ei,
    List.toFinset_card_of_nodup (sorted_toList vu.1).nodup,
    List.toFinset_card_of_nodup (sorted_toList vi.1).nodup,
    List.toFinset_card_of_nodup (sorted_toList h₁.1).nodup,
    List.toFinset_card_of_nodup (sorted_toList h₂.1).nodup,
    length_toList vu.2, length_toList vi.2, length_toList h₁.2, length_toList h₂.2] at key
  exact key

end Ordnode

/-- C6: for valid sets, the size of the union plus the size of the intersection
equals the sum of the two sizes. -/
theorem c6_size_union_add_size_inter {α : Type u} [LinearOrder α] (s t : Im.Set α)
    (hs : s.valid = true) (ht : t.valid = true) :
    (s.union t).size + (s.intersection t).size = s.size + t.size := by
  rw [Im.Set.size_eq_strip, Im.Set.size_eq_strip, Im.Set.size_eq_strip,
    Im.Set.size_eq_strip]
  show (Im.Map.strip (Im.Map.union s.toMap t.toMap)).size +
    (Im.Map.strip (Im.Map.intersection s.toMap t.toMap)).size = _
  rw [Im.Map.strip_union, Im.Map.strip_intersection]
  exact Ordnode.size_junion_add_size_jinter (Im.Set.valid_strip hs) (Im.Set.valid_strip ht)

/-- C6 witness: the size law applied to two concrete overlapping sets. -/
theorem c6_size_union_add_size_inter_witness :
    ((Im.Set.empty.insert 1).insert 2 : Im.Set ℕ).valid = true ∧
      ((Im.Set.empty.insert 2).insert 3 : Im.Set ℕ).valid = true ∧
      (((Im.Set.empty.insert 1).insert 2 : Im.Set ℕ).union
          ((Im.Set.empty.insert 2).insert 3)).size +
        (((Im.Set.empty.insert 1).insert 2 : Im.Set ℕ).intersection
          ((Im.Set.empty.insert 2).insert 3)).size =
        ((Im.Set.empty.insert 1).insert 2 : Im.Set ℕ).size +
          ((Im.Set.empty.insert 2).insert 3 : Im.Set ℕ).size :=
  ⟨by decide, by decide,
    c6_size_union_add_size_inter ((Im.Set.empty.insert 1).insert 2)
      ((Im.Set.empty.insert 2).insert 3) (by decide) (by decide)⟩

namespace Im

namespace Map

variable {α : Type u} {β : Type v}

theorem eq_tip_of_size_zero {t : Map α β} (hs : Ordnode.Sized (strip t))
    (h : size t = 0) : t = tip := by
  cases t with
  | tip => rfl
  | node sz l k v r =>
    have hp := Ordnode.Sized.pos
      (show Ordnode.Sized (Ordnode.node sz (strip l) k (strip r)) from hs)
    have : size (node sz l k v r) = sz := rfl
    omega

theorem balanceR_eq_node : ∀ {l : Map α β} {k : α} {v : β} {r : Map α β},
    Ordnode.Sized (strip l) → Ordnode.Sized (strip r) →
    Ordnode.BalancedSz (size l) (size r) →
    balanceR l k v r = node (size l + size r + 1) l k v r
  | tip, _, _, tip, _, _, _ => rfl
  | tip, k, v, node rs rl rk rv rr, _, sr, H => by
    simp only [strip_node] at sr
    have hrs : rs = Ordnode.size (strip rl) + Ordnode.size (strip rr) + 1 := sr.1
    rw [size_strip, size_strip] at hrs
    have hb : rs ≤ 1 := by
      rcases H with h | ⟨-, h₂⟩
      · change 0 + rs ≤ 1 at h; omega
      · change rs ≤ 3 * 0 at h₂; omega
    have hrl : rl = tip := eq_tip_of_size_zero sr.2.1 (by omega)
    have hrr : rr = tip := eq_tip_of_size_zero sr.2.2 (by omega)
    subst hrl; subst hrr
    have h1 : rs = 1 := by
      have : size (tip : Map α β) = 0 := rfl
      omega
    subst h1
    rfl
  | node ls ll lk lv lr, _, _, tip, _, _, _ => rfl
  | node ls ll lk lv lr, k, v, node rs rl rk rv rr, sl, sr, H => by
    simp only [strip_node] at sl sr
    have hls := Ordnode.Sized.pos
      (show Ordnode.Sized (Ordnode.node ls (strip ll) lk (strip lr)) from sl)
    have hrs := Ordnode.Sized.pos
      (show Ordnode.Sized (Ordnode.node rs (strip rl) rk (strip rr)) from sr)
    simp only [balanceR]
    have hng : ¬ rs > delta * ls := by
      intro hgt
      change 3 * ls < rs at hgt
      rcases H with h | ⟨-, h₂⟩
      · change ls + rs ≤ 1 at h; omega
      · change rs ≤ 3 * ls at h₂; omega
    rw [if_neg hng]
    rfl

theorem balanceL_eq_node : ∀ {l : Map α β} {k : α} {v : β} {r : Map α β},
    Ordnode.Sized (strip l) → Ordnode.Sized (strip r) →
    Ordnode.BalancedSz (size l) (size r) →
    balanceL l k v r = node (size l + size r + 1) l k v r
  | tip, _, _, tip, _, _, _ => rfl
  | node ls ll lk lv lr, k, v, tip, sl, _, H => by
    simp only [strip_node] at sl
    have hls : ls = Ordnode.size (strip ll) + Ordnode.size (strip lr) + 1 := sl.1
    rw [size_strip, size_strip] at hls
    have hb : ls ≤ 1 := by
      rcases H with h | ⟨h₁, -⟩
      · change ls + 0 ≤ 1 at h; omega
      · change ls ≤ 3 * 0 at h₁; omega
    have hll : ll = tip := eq_tip_of_size_zero sl.2.1 (by omega)
    have hlr : lr = tip := eq_tip_of_size_zero sl.2.2 (by omega)
    subst hll; subst hlr
    have h1 : ls = 1 := by
      have : size (tip : Map α β) = 0 := rfl
      omega
    subst h1
    rfl
  | tip, k, v, node rs rl rk rv rr, _, _, _ => by
    simp only [balanceL]
    have e : size (tip : Map α β) + size (node rs rl rk rv rr) + 1 = rs + 1 := by
      change 0 + rs + 1 = rs + 1; omega
    rw [e]
  | node ls ll lk lv lr, k, v, node rs rl rk rv rr, sl, sr, H => by
    simp only [strip_node] at sl sr
    have hls := Ordnode.Sized.pos
      (show Ordnode.Sized (Ordnode.node ls (strip ll) lk (strip lr)) from sl)
    have hrs := Ordnode.Sized.pos
      (show Ordnode.Sized (Ordnode.node rs (strip rl) rk (strip rr)) from sr)
    simp only [balanceL]
    have hng : ¬ ls > delta * rs := by
      intro hgt
      change 3 * rs < ls at hgt
      rcases H with h | ⟨h₁, -⟩
      · change ls + rs ≤ 1 at h; omega
      · change ls ≤ 3 * rs at h₁; omega
    rw [if_neg hng]
    rfl

theorem delete_of_not_containsKey [LinearOrder α] {k : α} : ∀ {t : Map α β}
    {o₁ : WithBot α} {o₂ : WithTop α}, Ordnode.Valid' o₁ (strip t) o₂ →
    containsKey k t = false → delete k t = t
  | tip, _, _, _, _ => rfl
  | node sz l k' v' r, o₁, o₂, h, hm => by
    simp only [strip_node] at h
    simp only [containsKey] at hm
    simp only [delete]
    cases hc : compare k k' with
    | lt =>
      simp only [hc] at hm ⊢
      rw [delete_of_not_containsKey h.left hm]
      have H := h.3.1
      rw [size_strip, size_strip] at H
      rw [balanceR_eq_node h.2.2.1 h.2.2.2 H]
      have e := h.2.1
      rw [size_strip, size_strip] at e
      rw [e]
    | eq => simp [hc] at hm
    | gt =>
      simp only [hc] at hm ⊢
      rw [delete_of_not_containsKey h.right hm]
      have H := h.3.1
      rw [size_strip, size_strip] at H
      rw [balanceL_eq_node h.2.2.1 h.2.2.2 H]
      have e := h.2.1
      rw [size_strip, size_strip] at e
      rw [e]

end Map

end Im

/-- C7: deleting `a` from a valid set yields a set not containing `a`; and if
the set does not contain `a`, `delete` returns the set unchanged. -/
theorem c7_delete {α : Type u} [LinearOrder α] (s : Im.Set α) (a : α)
    (hv : s.valid = true) :
    (s.delete a).contains a = false ∧ (s.contains a = false → s.delete a = s) := by
  constructor
  · show Im.Map.containsKey a (Im.Map.delete a s.toMap) = false
    rw [Im.Map.strip_containsKey, Im.Map.strip_delete]
    have hvd : (Ordnode.erase a (Im.Map.strip s.toMap)).Valid :=
      Ordnode.erase.valid a (Im.Set.valid_strip hv)
    refine Bool.eq_false_iff.mpr fun hj => ?_
    rw [Ordnode.jmem_iff hvd.1,
      Ordnode.mem_toList_erase (Im.Set.valid_strip hv) a] at hj
    exact hj.2 rfl
  · intro h
    have e : Im.Map.delete a s.toMap = s.toMap :=
      Im.Map.delete_of_not_containsKey (Im.Set.valid_strip hv) h
    show Im.Set.mk (Im.Map.delete a s.toMap) = s
    rw [e]

/-- C7 witness: deleting an absent element from a concrete set is a no-op and
the result does not contain the element. -/
theorem c7_delete_witness :
    ((Im.Set.empty.insert (1 : ℕ)).delete 2).contains 2 = false ∧
      ((Im.Set.empty.insert (1 : ℕ)).contains 2 = false →
        (Im.Set.empty.insert (1 : ℕ)).delete 2 = Im.Set.empty.insert 1) :=
  c7_delete (Im.Set.empty.insert 1) 2 (by decide)

/-- C4: `split_member` returns a presence flag equal to `contains`, a left part
whose elements all compare below the pivot, a right part whose elements all
compare above the pivot, and part sizes that (counting the pivot when the flag
is set) add up to the size of the original set. -/
theorem c4_split_member {α : Type u} [LinearOrder α] (s : Im.Set α) (a : α)
    (hv : s.valid = true) :
    (s.split_member a).2.1 = s.contains a ∧
      (∀ x ∈ (s.split_member a).1.iter, x < a) ∧
      (∀ x ∈ (s.split_member a).2.2.iter, a < x) ∧
      (s.split_member a).1.size + (s.split_member a).2.2.size +
        (if (s.split_member a).2.1 then 1 else 0) = s.size := by
  have e := Im.Map.strip_splitLookup (β := Unit) a s.toMap
  have v := Ordnode.valid'_jsplit3 (x := a) (Im.Set.valid_strip hv) ⟨⟩ ⟨⟩
  have e1 : (Ordnode.jsplit3 a (Im.Map.strip s.toMap)).1
      = Im.Map.strip (Im.Map.splitLookup a s.toMap).1 := by rw [e]
  have e2 : (Ordnode.jsplit3 a (Im.Map.strip s.toMap)).2.1
      = ((Im.Map.splitLookup a s.toMap).2.1).map (fun _ => a) := by rw [e]
  have e3 : (Ordnode.jsplit3 a (Im.Map.strip s.toMap)).2.2
      = Im.Map.strip (Im.Map.splitLookup a s.toMap).2.2 := by rw [e]
  rw [e1, e2, e3] at v
  obtain ⟨vL, vR, hsz, -, hlist⟩ := v
  refine ⟨?_, ?_, ?_, ?_⟩
  · show (Im.Map.splitLookup a s.toMap).2.1.isSome = Im.Map.containsKey a s.toMap
    rw [Im.Map.strip_containsKey]
    cases hp : (Im.Map.splitLookup a s.toMap).2.1 with
    | none =>
      rw [hp] at hlist
      simp only [Option.map_none', Option.toList_none, List.append_nil] at hlist
      symm
      show Ordnode.jmem a (Im.Map.strip s.toMap) = false
      refine Bool.eq_false_iff.mpr fun hj => ?_
      rw [Ordnode.jmem_iff (Im.Set.valid_strip hv).1, hlist] at hj
      rcases List.mem_append.1 hj with hj | hj
      · exact absurd (Ordnode.all_mem_toList vL.1.mem_lt hj) (lt_irrefl a)
      · exact absurd (Ordnode.all_mem_toList vR.1.mem_gt hj) (lt_irrefl a)
    | some u =>
      rw [hp] at hlist
      symm
      show Ordnode.jmem a (Im.Map.strip s.toMap) = true
      rw [Ordnode.jmem_iff (Im.Set.valid_strip hv).1, hlist]
      simp
  · intro x hx
    rw [Im.Set.iter_eq_toList] at hx
    exact Ordnode.all_mem_toList vL.1.mem_lt hx
  · intro x hx
    rw [Im.Set.iter_eq_toList] at hx
    exact Ordnode.all_mem_toList vR.1.mem_gt hx
  · rw [Im.Map.size_strip, Im.Map.size_strip, Im.Map.size_strip] at hsz
    show Im.Map.size (Im.Map.splitLookup a s.toMap).1 +
      Im.Map.size (Im.Map.splitLookup a s.toMap).2.2 +
      (if (Im.Map.splitLookup a s.toMap).2.1.isSome then 1 else 0) =
      Im.Map.size s.toMap
    cases hp : (Im.Map.splitLookup a s.toMap).2.1 with
    | none => rw [hp] at hsz; simpa using hsz
    | some u => rw [hp] at hsz; simpa using hsz

/-- C4 witness: splitting a concrete set at an absent pivot. -/
theorem c4_split_member_witness :
    ((Im.Set.empty.insert 1).insert 3 : Im.Set ℕ).valid = true ∧
      ((((Im.Set.empty.insert 1).insert 3 : Im.Set ℕ).split_member 2).2.1 =
          ((Im.Set.empty.insert 1).insert 3).contains 2 ∧
        (∀ x ∈ (((Im.Set.empty.insert 1).insert 3 : Im.Set ℕ).split_member 2).1.iter,
          x < 2) ∧
        (∀ x ∈ (((Im.Set.empty.insert 1).insert 3 : Im.Set ℕ).split_member 2).2.2.iter,
          2 < x) ∧
        (((Im.Set.empty.insert 1).insert 3 : Im.Set ℕ).split_member 2).1.size +
          (((Im.Set.empty.insert 1).insert 3 : Im.Set ℕ).split_member 2).2.2.size +
          (if (((Im.Set.empty.insert 1).insert 3 : Im.Set ℕ).split_member 2).2.1 then 1
            else 0) =
          ((Im.Set.empty.insert 1).insert 3 : Im.Set ℕ).size) :=
  ⟨by decide, c4_split_member ((Im.Set.empty.insert 1).insert 3) 2 (by decide)⟩

namespace Im

namespace Set

variable {α : Type u}

/-- The drain loop of the ordered-drain property: repeatedly apply `pop_min`,
collecting the extracted elements until `none` is returned; the first argument
is a fuel bound on the number of iterations. -/
def drain : ℕ → Set α → List α
  | 0, _ => []
  | n + 1, s =>
    match s.pop_min with
    | (none, _) => []
    | (some a, s') => a :: drain n s'

theorem drain_succ_of_pop_min (n : ℕ) (s : Set α) {a : α} {s' : Set α}
    (h : s.pop_min = (some a, s')) : drain (n + 1) s = a :: drain n s' := by
  simp only [drain, h]

end Set

end Im

/-- C9: for a valid set, draining it by repeated `pop_min` (with fuel at least
the size of the set) yields exactly the ascending element sequence of `iter`. -/
theorem c9_pop_min_drain {α : Type u} [LinearOrder α] : ∀ (n : ℕ) (s : Im.Set α),
    s.valid = true → s.size ≤ n → Im.Set.drain n s = s.iter := by
  intro n
  induction n with
  | zero =>
    intro s hv hn
    obtain ⟨t⟩ := s
    have h0 : Im.Map.size t = 0 := Nat.le_zero.1 hn
    have ht : t = Im.Map.tip := Im.Map.eq_tip_of_size_zero (Im.Set.valid_strip hv).2 h0
    subst ht
    rfl
  | succ n ih =>
    intro s hv hn
    obtain ⟨t⟩ := s
    cases t with
    | tip => rfl
    | node sz l k v r =>
      have hne : Im.Map.strip (Im.Map.node sz l k v r) ≠ Ordnode.nil := by
        rw [Im.Map.strip_node]
        exact fun h => Ordnode.noConfusion h
      obtain ⟨m, t', hpop, hlist, hval, hsize⟩ :=
        Ordnode.jpopMin_spec (Im.Set.valid_strip hv) hne
      have hs := Im.Map.strip_popMinWithKey (Im.Map.node sz l k v r)
      rw [hpop] at hs
      simp only [Prod.mk.injEq] at hs
      obtain ⟨hs1, hs2⟩ := hs
      have hpm : (Im.Set.mk (Im.Map.node sz l k v r)).pop_min =
          (some m, Im.Set.mk (Im.Map.popMinWithKey (Im.Map.node sz l k v r)).2) := by
        show ((Im.Map.popMinWithKey (Im.Map.node sz l k v r)).1.map Prod.fst, _) =
          (_, _)
        rw [← hs1]
      rw [Im.Set.drain_succ_of_pop_min n _ hpm]
      have hv' : (Im.Set.mk (Im.Map.popMinWithKey (Im.Map.node sz l k v r)).2).valid
          = true :=
        Im.Set.valid_of_strip (by rw [← hs2]; exact hval)
      have hsz' : (Im.Set.mk (Im.Map.popMinWithKey (Im.Map.node sz l k v r)).2).size
          ≤ n := by
        rw [Im.Set.size_eq_strip, ← hs2]
        rw [Im.Set.size_eq_strip] at hn
        omega
      rw [ih _ hv' hsz', Im.Set.iter_eq_toList, Im.Set.iter_eq_toList]
      show m :: Ordnode.toList (Im.Map.strip (Im.Map.popMinWithKey
        (Im.Map.node sz l k v r)).2) = _
      rw [← hs2, ← hlist]

/-- C9 witness: draining a concrete two-element set. -/
theorem c9_pop_min_drain_witness :
    ((Im.Set.empty.insert 2).insert 1 : Im.Set ℕ).valid = true ∧
      ((Im.Set.empty.insert 2).insert 1 : Im.Set ℕ).size ≤ 2 ∧
      Im.Set.drain 2 ((Im.Set.empty.insert 2).insert 1 : Im.Set ℕ) =
        ((Im.Set.empty.insert 2).insert 1 : Im.Set ℕ).iter :=
  ⟨by decide, by decide,
    c9_pop_min_drain 2 ((Im.Set.empty.insert 2).insert 1) (by decide) (by decide)⟩

/-- C10: `unions` over a sequence of sets is the left fold of `union` starting
from the empty set, and in particular `unions` of the empty sequence is the
empty set. -/
theorem c10_unions {α : Type u} [LinearOrder α] (l : List (Im.Set α)) :
    Im.Set.unions l = l.foldl (fun a b => a.union b) Im.Set.empty ∧
      Im.Set.unions ([] : List (Im.Set α)) = Im.Set.empty :=
  ⟨rfl, rfl⟩
